import Mathlib

/-!
A verification development for the go-qfext quotient-filter library.

The Go source is shallowly embedded: machine `uint`/`uint64` values are
natural numbers that are kept below `2^64` by taking `% 2^64` exactly where
the Go arithmetic wraps (left shifts); Go panics are modelled by `Option`
(`none` is a panic) or by a dedicated outcome type where the distinction
between a panic and a returned error matters; mutation is modelled by
returning the updated state.
-/

namespace QfExt

/-- `2^64`, the modulus of Go's `uint`/`uint64` arithmetic (the library is
only used with 64-bit words: `BitsPerWord = 64`). -/
def wordMod : Nat := 2 ^ 64

/-- Go's 64-bit left shift `a << s`, which drops bits shifted above bit 63. -/
def shl64 (a s : Nat) : Nat := (a <<< s) % wordMod

/-! ## Bit-packed vector (src/packed.go)

`packed` stores `size` integers of `bits` width (`bits ≤ 64`) in a
contiguous slice of 64-bit words.  The Go slice `space []uint` becomes a
`List Nat` whose entries are kept `< 2^64`.  Go's out-of-range slice
indexing panic is modelled by `none`. -/

/-- The Go struct `packed` (src/packed.go). -/
structure Packed where
  forbiddenMask : Nat
  bits : Nat
  space : List Nat
  size : Nat
  deriving Repr, DecidableEq

/-- `wordsRequired` (src/packed.go): `((count * bits) / BitsPerWord) + 1`.
The Go multiplication `count * bits` is `uint` arithmetic, hence the
`% 2^64`. -/
def wordsRequired (bits count : Nat) : Nat :=
  ((count * bits) % wordMod) / 64 + 1

/-- `genForbiddenMask` (src/packed.go): `^((1 << bits) - 1)` in `uint`
arithmetic; `^` is bitwise complement, and the subtraction wraps (for
`bits = 64` the shift gives `0` and `0 - 1` wraps to `2^64 - 1`). -/
def genForbiddenMask (bits : Nat) : Nat :=
  (wordMod - 1) ^^^ ((shl64 1 bits + (wordMod - 1)) % wordMod)

/-- `BitPackedVectorAllocate` (src/packed.go): panics when `bits > 64`,
otherwise allocates `wordsRequired bits size` zeroed words. -/
def BitPackedVectorAllocate (bits size : Nat) : Option Packed :=
  if bits > 64 then none
  else some ⟨genForbiddenMask bits, bits, List.replicate (wordsRequired bits size) 0, size⟩

/-- `packed.Set` (src/packed.go lines 52-76).  Panics (`none`) when `val`
has a bit inside `forbiddenMask`, or on an out-of-range word index. -/
def Packed.Set (p : Packed) (ix val : Nat) : Option Packed :=
  if val &&& p.forbiddenMask ≠ 0 then none
  else
    let bitstart := ix * p.bits
    let word := bitstart / 64
    let bitoff := bitstart % 64
    let getbits := if 64 - bitoff > p.bits then p.bits else 64 - bitoff
    match p.space.get? word with
    | none => none
    | some w0 =>
      -- zero the field inside word `word`, keeping the bits above and below
      let w0z := (shl64 (w0 >>> (bitoff + getbits)) (bitoff + getbits)) |||
                 (shl64 w0 (64 - bitoff) >>> (64 - bitoff))
      -- or in val
      let w0v := w0z ||| shl64 val bitoff
      let space1 := p.space.set word w0v
      if getbits < p.bits then
        let remainder := p.bits - getbits
        match space1.get? (word + 1) with
        | none => none
        | some w1 =>
          let w1v := (shl64 (w1 >>> remainder) remainder) ||| (val >>> getbits)
          some { p with space := space1.set (word + 1) w1v }
      else some { p with space := space1 }

/-- `packed.Get` (src/packed.go lines 78-97). Panics (`none`) on an
out-of-range word index. -/
def Packed.Get (p : Packed) (ix : Nat) : Option Nat :=
  let bitstart := ix * p.bits
  let word := bitstart / 64
  let bitoff := bitstart % 64
  let getbits := if 64 - bitoff > p.bits then p.bits else 64 - bitoff
  match p.space.get? word with
  | none => none
  | some w0 =>
    let sl := 64 - getbits - bitoff
    let sr := 64 - getbits
    let val := shl64 w0 sl >>> sr
    if getbits < p.bits then
      match p.space.get? (word + 1) with
      | none => none
      | some w1 =>
        let remainder := p.bits - getbits
        let x := shl64 w1 (64 - remainder) >>> (64 - remainder)
        some (val ||| shl64 x getbits)
    else some val

/-- `packed.Swap` (src/packed.go): `Get` then `Set`. -/
def Packed.Swap (p : Packed) (ix val : Nat) : Option (Nat × Packed) :=
  match p.Get ix with
  | none => none
  | some oldval =>
    match p.Set ix val with
    | none => none
    | some p2 => some (oldval, p2)

/-! ## Unpacked vector (src/unpacked.go)

`unpacked` is a plain `[]uint64`; one word per element, no width check on
`Set`. -/

/-- `UnpackedVectorAllocate` (src/unpacked.go): panics when `bits > 64`,
otherwise allocates `size` zeroed words (one word per element). -/
def UnpackedVectorAllocate (bits size : Nat) : Option (List Nat) :=
  if bits > 64 then none
  else some (List.replicate size 0)

/-- `unpacked.Set` (src/unpacked.go lines 27-29): `(*v)[ix] = val`.  The only
panic is Go's slice bounds check; the value is stored unchecked. -/
def unpackedSet (v : List Nat) (ix val : Nat) : Option (List Nat) :=
  if ix < v.length then some (v.set ix val) else none

/-- `unpacked.Get` (src/unpacked.go): `(*v)[ix]`. -/
def unpackedGet (v : List Nat) (ix : Nat) : Option Nat := v.get? ix

/-! ### The bitstream view of a packed vector

`listNum` reads a word list as one natural number, little-endian: word `k`
contributes its 64 bits at positions `64*k ..`.  All reasoning about
`Packed.Get`/`Packed.Set` goes through `Nat.testBit` on this number. -/

/-- The word list as a single natural number (little-endian). -/
def listNum : List Nat → Nat
  | [] => 0
  | w :: ws => w + 2 ^ 64 * listNum ws

/-- Every stored word is a 64-bit value. -/
def words64 (l : List Nat) : Prop := ∀ x ∈ l, x < 2 ^ 64

instance (l : List Nat) : Decidable (words64 l) :=
  inferInstanceAs (Decidable (∀ x ∈ l, x < 2 ^ 64))

theorem listNum_testBit {l : List Nat} (h : words64 l) (k : Nat) :
    (listNum l).testBit k = (l.getD (k / 64) 0).testBit (k % 64) := by
  induction l generalizing k with
  | nil => simp [listNum, List.getD]
  | cons w ws ih =>
    have hw : w < 2 ^ 64 := h w (List.mem_cons_self _ _)
    have hws : words64 ws := fun x hx => h x (List.mem_cons_of_mem _ hx)
    have : listNum (w :: ws) = 2 ^ 64 * listNum ws + w := by
      simp [listNum]; ring
    rw [this, Nat.testBit_mul_pow_two_add _ hw]
    by_cases hk : k < 64
    · simp only [if_pos hk]
      have h1 : k / 64 = 0 := Nat.div_eq_of_lt hk
      have h2 : k % 64 = k := Nat.mod_eq_of_lt hk
      simp [h1, h2]
    · simp only [if_neg hk]
      rw [ih hws]
      have h64 : 64 ≤ k := Nat.le_of_not_lt hk
      have h1 : (k - 64) / 64 = k / 64 - 1 := by omega
      have h2 : (k - 64) % 64 = k % 64 := by omega
      have h3 : 1 ≤ k / 64 := by omega
      rw [h1, h2]
      have : (w :: ws).getD (k / 64) 0 = ws.getD (k / 64 - 1) 0 := by
        rcases Nat.exists_eq_add_of_le h3 with ⟨m, hm⟩
        have : k / 64 = m + 1 := by omega
        simp [this]
      rw [this]

theorem getD_set_self {l : List Nat} {n : Nat} (hn : n < l.length) (x : Nat) :
    (l.set n x).getD n 0 = x := by
  simp [List.getD, List.getElem?_set_self, hn]

theorem getD_set_ne {l : List Nat} {n m : Nat} (hnm : n ≠ m) (x : Nat) :
    (l.set n x).getD m 0 = l.getD m 0 := by
  simp [List.getD, List.getElem?_set_ne hnm]

theorem words64_set {l : List Nat} (h : words64 l) {x : Nat} (hx : x < 2 ^ 64) (n : Nat) :
    words64 (l.set n x) := by
  intro y hy
  rcases List.mem_or_eq_of_mem_set hy with h' | rfl
  · exact h y h'
  · exact hx

theorem shl64_lt (a s : Nat) : shl64 a s < 2 ^ 64 := by
  unfold shl64 wordMod
  exact Nat.mod_lt _ (by norm_num)

theorem testBit_shl64 (a s j : Nat) :
    (shl64 a s).testBit j = (decide (j < 64) && decide (s ≤ j) && a.testBit (j - s)) := by
  unfold shl64 wordMod
  rw [Nat.testBit_mod_two_pow, Nat.testBit_shiftLeft]
  by_cases h1 : j < 64 <;> by_cases h2 : s ≤ j <;> simp [h1, h2]

theorem get?_eq_some_getD {l : List Nat} {n : Nat} (hn : n < l.length) :
    l.get? n = some (l.getD n 0) := by
  simp [List.get?_eq_getElem?, List.getD, List.getElem?_eq_getElem hn]

theorem getD_mem {l : List Nat} {n : Nat} (hn : n < l.length) : l.getD n 0 ∈ l := by
  have h : l.getD n 0 = l[n] := by simp [List.getD, List.getElem?_eq_getElem hn]
  rw [h]
  exact List.getElem_mem hn


set_option maxRecDepth 4000

set_option maxHeartbeats 1000000 in
theorem Packed.get_spec (p : Packed) (ix : Nat)
    (hb1 : 1 ≤ p.bits) (hb2 : p.bits ≤ 64)
    (hw : words64 p.space)
    (hfit : ix * p.bits + p.bits ≤ 64 * p.space.length) :
    p.Get ix = some ((listNum p.space >>> (ix * p.bits)) % 2 ^ p.bits) := by
  have hlen0 : ix * p.bits / 64 < p.space.length := by omega
  simp only [Packed.Get]
  rw [get?_eq_some_getD hlen0]
  dsimp only
  by_cases hA : 64 - ix * p.bits % 64 > p.bits
  · -- no straddle, getbits = p.bits, and p.bits < p.bits is false
    simp only [if_pos hA, lt_irrefl, if_neg not_false]
    congr 1
    apply Nat.eq_of_testBit_eq
    intro j
    rw [Nat.testBit_shiftRight, testBit_shl64, Nat.testBit_mod_two_pow, Nat.testBit_shiftRight,
        listNum_testBit hw]
    by_cases hj : j < p.bits
    · have h1 : (ix * p.bits + j) / 64 = ix * p.bits / 64 := by omega
      have h2 : (ix * p.bits + j) % 64 = ix * p.bits % 64 + j := by omega
      rw [h1, h2]
      have h3 : 64 - p.bits + j < 64 := by omega
      have h4 : 64 - p.bits - ix * p.bits % 64 ≤ 64 - p.bits + j := by omega
      have h5 : 64 - p.bits + j - (64 - p.bits - ix * p.bits % 64) = ix * p.bits % 64 + j := by omega
      simp [hj, h3, h4, h5]
    · have h3 : ¬ (64 - p.bits + j < 64) := by omega
      simp [hj, h3]
  · -- 64 - off ≤ p.bits: getbits = 64 - off
    simp only [if_neg hA]
    by_cases hB : 64 - ix * p.bits % 64 < p.bits
    · -- the field straddles the word boundary
      have hlen1 : ix * p.bits / 64 + 1 < p.space.length := by omega
      rw [if_pos hB, get?_eq_some_getD hlen1]
      dsimp only
      congr 1
      apply Nat.eq_of_testBit_eq
      intro j
      rw [Nat.testBit_or, Nat.testBit_shiftRight, testBit_shl64, testBit_shl64,
          Nat.testBit_shiftRight, testBit_shl64, Nat.testBit_mod_two_pow,
          Nat.testBit_shiftRight, listNum_testBit hw]
      by_cases hj : j < p.bits
      · by_cases hjg : j < 64 - ix * p.bits % 64
        · have h1 : (ix * p.bits + j) / 64 = ix * p.bits / 64 := by omega
          have h2 : (ix * p.bits + j) % 64 = ix * p.bits % 64 + j := by omega
          rw [h1, h2]
          have h3 : 64 - (64 - ix * p.bits % 64) + j < 64 := by omega
          have h4 : 64 - (64 - ix * p.bits % 64) + j -
              (64 - (64 - ix * p.bits % 64) - ix * p.bits % 64) = ix * p.bits % 64 + j := by
            omega
          have h5 : ¬ (64 - ix * p.bits % 64 ≤ j) := by omega
          simp [hj, h3, h4, h5]
          intro _
          omega
        · have h1 : (ix * p.bits + j) / 64 = ix * p.bits / 64 + 1 := by omega
          have h2 : (ix * p.bits + j) % 64 = j - (64 - ix * p.bits % 64) := by omega
          rw [h1, h2]
          have h3 : ¬ (64 - (64 - ix * p.bits % 64) + j < 64) := by omega
          have h4 : j < 64 := by omega
          have h5 : 64 - ix * p.bits % 64 ≤ j := by omega
          have h6 : 64 - (p.bits - (64 - ix * p.bits % 64)) ≤
              64 - (p.bits - (64 - ix * p.bits % 64)) + (j - (64 - ix * p.bits % 64)) := by omega
          have h7 : 64 - (p.bits - (64 - ix * p.bits % 64)) + (j - (64 - ix * p.bits % 64)) < 64 := by
            omega
          have h8 : 64 - (p.bits - (64 - ix * p.bits % 64)) + (j - (64 - ix * p.bits % 64)) -
              (64 - (p.bits - (64 - ix * p.bits % 64))) = j - (64 - ix * p.bits % 64) := by omega
          simp [hj, h3, h4, h5, h6, h7, h8]
      · have h3 : ¬ (64 - (64 - ix * p.bits % 64) + j < 64) := by omega
        have h7 : ¬ (64 - (p.bits - (64 - ix * p.bits % 64)) +
            (j - (64 - ix * p.bits % 64)) < 64) := by omega
        simp [hj, h3, h7]
    · -- exact boundary: 64 - off = p.bits
      have hEq : 64 - ix * p.bits % 64 = p.bits := by omega
      rw [if_neg hB]
      congr 1
      apply Nat.eq_of_testBit_eq
      intro j
      rw [hEq, Nat.testBit_shiftRight, testBit_shl64, Nat.testBit_mod_two_pow,
          Nat.testBit_shiftRight, listNum_testBit hw]
      by_cases hj : j < p.bits
      · have h1 : (ix * p.bits + j) / 64 = ix * p.bits / 64 := by omega
        have h2 : (ix * p.bits + j) % 64 = ix * p.bits % 64 + j := by omega
        rw [h1, h2]
        have h3 : 64 - p.bits + j < 64 := by omega
        have h4 : 64 - p.bits - ix * p.bits % 64 ≤ 64 - p.bits + j := by omega
        have h5 : 64 - p.bits + j - (64 - p.bits - ix * p.bits % 64) = ix * p.bits % 64 + j := by
          omega
        simp [hj, h3, h4, h5]
      · have h3 : ¬ (64 - p.bits + j < 64) := by omega
        simp [hj, h3]

set_option maxRecDepth 4000

theorem shiftRight_lt64 {a : Nat} (h : a < 2 ^ 64) (s : Nat) : a >>> s < 2 ^ 64 :=
  Nat.lt_of_le_of_lt (by rw [Nat.shiftRight_eq_div_pow]; exact Nat.div_le_self _ _) h

/-- The wrapped-subtraction complement in `genForbiddenMask` equals the xor
of two bit masks: bits `bits ≤ j < 64` are set. -/
theorem genForbiddenMask_eq {bits : Nat} (hb : bits ≤ 64) :
    genForbiddenMask bits = (2 ^ 64 - 1) ^^^ (2 ^ bits - 1) := by
  have h1 : shl64 1 bits = 2 ^ bits % 2 ^ 64 := by
    unfold shl64 wordMod
    rw [Nat.shiftLeft_eq, one_mul]
  have h2 : 2 ^ bits ≤ 2 ^ 64 := Nat.pow_le_pow_right (by norm_num) hb
  have h3 : 1 ≤ 2 ^ bits := Nat.one_le_two_pow
  have h5 : (shl64 1 bits + (wordMod - 1)) % wordMod = 2 ^ bits - 1 := by
    rw [h1]
    unfold wordMod
    generalize hgen : (2 : Nat) ^ bits = m at h2 h3 ⊢
    have h4 : (2 : Nat) ^ 64 = 18446744073709551616 := by norm_num
    rw [h4] at h2 ⊢
    omega
  unfold genForbiddenMask
  rw [h5]
  unfold wordMod
  rfl

theorem genForbiddenMask_testBit {bits : Nat} (hb : bits ≤ 64) (j : Nat) :
    (genForbiddenMask bits).testBit j = (decide (bits ≤ j) && decide (j < 64)) := by
  rw [genForbiddenMask_eq hb, Nat.testBit_xor, Nat.testBit_two_pow_sub_one,
      Nat.testBit_two_pow_sub_one]
  by_cases h1 : j < 64 <;> by_cases h2 : j < bits <;>
    simp [h1, h2] <;> omega

theorem and_genForbiddenMask_eq_zero {bits val : Nat} (hb : bits ≤ 64)
    (hv : val < 2 ^ bits) : val &&& genForbiddenMask bits = 0 := by
  apply Nat.eq_of_testBit_eq
  intro j
  rw [Nat.testBit_and, genForbiddenMask_testBit hb, Nat.zero_testBit]
  by_cases h : bits ≤ j
  · have : val.testBit j = false :=
      Nat.testBit_lt_two_pow (Nat.lt_of_lt_of_le hv (Nat.pow_le_pow_right (by norm_num) h))
    simp [this]
  · simp [h]

theorem and_genForbiddenMask_ne_zero {bits val : Nat} (hb : bits ≤ 64)
    (hv64 : val < 2 ^ 64) (hv : ¬ val < 2 ^ bits) : val &&& genForbiddenMask bits ≠ 0 := by
  have hge : val ≥ 2 ^ bits := Nat.le_of_not_lt hv
  obtain ⟨i, hi_ge, hi⟩ := Nat.ge_two_pow_implies_high_bit_true hge
  have hi64 : i < 64 := by
    by_contra hcon
    have : val.testBit i = false :=
      Nat.testBit_lt_two_pow
        (Nat.lt_of_lt_of_le hv64 (Nat.pow_le_pow_right (by norm_num) (Nat.le_of_not_lt hcon)))
    simp [this] at hi
  intro hzero
  have : (val &&& genForbiddenMask bits).testBit i = false := by
    rw [hzero]; exact Nat.zero_testBit i
  rw [Nat.testBit_and, genForbiddenMask_testBit hb, hi] at this
  simp [hi_ge, hi64] at this



set_option maxHeartbeats 1000000 in
/-- Value semantics of `packed.Set`: writing element `ix` succeeds on an
in-range value and index, replaces exactly the `bits`-wide field at bit
offset `ix * bits` of the bitstream, and leaves every other bit unchanged. -/
theorem Packed.set_spec (p : Packed) (ix val : Nat)
    (hb1 : 1 ≤ p.bits) (hb2 : p.bits ≤ 64)
    (hw : words64 p.space)
    (hfit : ix * p.bits + p.bits ≤ 64 * p.space.length)
    (hmask : p.forbiddenMask = genForbiddenMask p.bits)
    (hval : val < 2 ^ p.bits) :
    ∃ q : Packed, p.Set ix val = some q ∧
      q.bits = p.bits ∧ q.size = p.size ∧ q.forbiddenMask = p.forbiddenMask ∧
      q.space.length = p.space.length ∧ words64 q.space ∧
      ∀ k, (listNum q.space).testBit k =
        (if ix * p.bits ≤ k ∧ k < ix * p.bits + p.bits then val.testBit (k - ix * p.bits)
         else (listNum p.space).testBit k) := by
  have hlen0 : ix * p.bits / 64 < p.space.length := by omega
  have hval64 : val < 2 ^ 64 :=
    Nat.lt_of_lt_of_le hval (Nat.pow_le_pow_right (by norm_num) hb2)
  have hzero : val &&& p.forbiddenMask = 0 := by
    rw [hmask]; exact and_genForbiddenMask_eq_zero hb2 hval
  have hw0 : p.space.getD (ix * p.bits / 64) 0 < 2 ^ 64 := hw _ (getD_mem hlen0)
  simp only [Packed.Set]
  rw [if_neg (by simp [hzero]), get?_eq_some_getD hlen0]
  dsimp only
  by_cases hA : 64 - ix * p.bits % 64 > p.bits
  · -- field entirely inside one word
    simp only [if_pos hA, lt_irrefl, if_neg not_false]
    refine ⟨_, rfl, rfl, rfl, rfl, ?_, ?_, ?_⟩
    · simp
    · exact words64_set hw
        (Nat.or_lt_two_pow
          (Nat.or_lt_two_pow (shl64_lt _ _) (shiftRight_lt64 (shl64_lt _ _) _))
          (shl64_lt _ _)) _
    · intro k
      rw [listNum_testBit (words64_set hw
            (Nat.or_lt_two_pow
              (Nat.or_lt_two_pow (shl64_lt _ _) (shiftRight_lt64 (shl64_lt _ _) _))
              (shl64_lt _ _)) _),
          listNum_testBit hw]
      by_cases hin : ix * p.bits ≤ k ∧ k < ix * p.bits + p.bits
      · rw [if_pos hin]
        have hkd : k / 64 = ix * p.bits / 64 := by omega
        have hkm : k % 64 = ix * p.bits % 64 + (k - ix * p.bits) := by omega
        rw [hkd, getD_set_self hlen0]
        simp only [Nat.testBit_or, testBit_shl64, Nat.testBit_shiftRight]
        have f1 : ¬ (ix * p.bits % 64 + p.bits ≤ k % 64) := by omega
        have f2 : ¬ (64 - ix * p.bits % 64 + (k % 64) < 64) := by omega
        have f3 : k % 64 < 64 := by omega
        have f4 : ix * p.bits % 64 ≤ k % 64 := by omega
        have f5 : k % 64 - ix * p.bits % 64 = k - ix * p.bits := by omega
        simp [f1, f2, f3, f4, f5]
      · rw [if_neg hin]
        by_cases hkd : k / 64 = ix * p.bits / 64
        · rw [hkd, getD_set_self hlen0]
          simp only [Nat.testBit_or, testBit_shl64, Nat.testBit_shiftRight]
          by_cases hm : k % 64 < ix * p.bits % 64
          · have f1 : ¬ (ix * p.bits % 64 + p.bits ≤ k % 64) := by omega
            have f2 : 64 - ix * p.bits % 64 + (k % 64) < 64 := by omega
            have f3 : 64 - ix * p.bits % 64 + k % 64 - (64 - ix * p.bits % 64) = k % 64 := by
              omega
            have f4 : ¬ (ix * p.bits % 64 ≤ k % 64) := by omega
            have f5 : k % 64 < 64 := by omega
            simp [f1, f2, f3, f4, f5]
          · have hm2 : ix * p.bits % 64 + p.bits ≤ k % 64 := by omega
            have f2 : ¬ (64 - ix * p.bits % 64 + (k % 64) < 64) := by omega
            have f3 : ix * p.bits % 64 + p.bits + (k % 64 - (ix * p.bits % 64 + p.bits)) =
                k % 64 := by omega
            have f4 : ix * p.bits % 64 ≤ k % 64 := by omega
            have f5 : k % 64 < 64 := by omega
            have f6 : val.testBit (k % 64 - ix * p.bits % 64) = false :=
              Nat.testBit_lt_two_pow (Nat.lt_of_lt_of_le hval
                (Nat.pow_le_pow_right (by norm_num) (by omega)))
            simp [hm2, f2, f3, f4, f5, f6]
        · rw [getD_set_ne (fun h => hkd h.symm)]
  · -- getbits = 64 - off
    simp only [if_neg hA]
    by_cases hB : 64 - ix * p.bits % 64 < p.bits
    · -- the field straddles into word+1
      rw [if_pos hB]
      have hlen1 : ix * p.bits / 64 + 1 < p.space.length := by omega
      have hlen1' : ix * p.bits / 64 + 1 <
          (p.space.set (ix * p.bits / 64)
            ((shl64 (p.space.getD (ix * p.bits / 64) 0 >>>
                (ix * p.bits % 64 + (64 - ix * p.bits % 64)))
                (ix * p.bits % 64 + (64 - ix * p.bits % 64)) |||
              shl64 (p.space.getD (ix * p.bits / 64) 0) (64 - ix * p.bits % 64) >>>
                (64 - ix * p.bits % 64)) |||
              shl64 val (ix * p.bits % 64))).length := by
        simpa using hlen1
      rw [get?_eq_some_getD hlen1']
      rw [getD_set_ne (by omega)]
      dsimp only
      refine ⟨_, rfl, rfl, rfl, rfl, ?_, ?_, ?_⟩
      · simp
      · refine words64_set (words64_set hw ?_ _) ?_ _
        · exact Nat.or_lt_two_pow
            (Nat.or_lt_two_pow (shl64_lt _ _) (shiftRight_lt64 (shl64_lt _ _) _))
            (shl64_lt _ _)
        · exact Nat.or_lt_two_pow (shl64_lt _ _) (shiftRight_lt64 hval64 _)
      · intro k
        rw [listNum_testBit (words64_set (words64_set hw
              (Nat.or_lt_two_pow
                (Nat.or_lt_two_pow (shl64_lt _ _) (shiftRight_lt64 (shl64_lt _ _) _))
                (shl64_lt _ _)) _)
              (Nat.or_lt_two_pow (shl64_lt _ _) (shiftRight_lt64 hval64 _)) _),
            listNum_testBit hw]
        by_cases hin : ix * p.bits ≤ k ∧ k < ix * p.bits + p.bits
        · rw [if_pos hin]
          by_cases hkd : k / 64 = ix * p.bits / 64
          · -- low part of the field
            rw [hkd, getD_set_ne (by omega), getD_set_self hlen0]
            simp only [Nat.testBit_or, testBit_shl64, Nat.testBit_shiftRight]
            have f1 : ¬ (ix * p.bits % 64 + (64 - ix * p.bits % 64) ≤ k % 64) := by omega
            have f2 : ¬ (64 - ix * p.bits % 64 + (k % 64) < 64) := by omega
            have f3 : k % 64 < 64 := by omega
            have f4 : ix * p.bits % 64 ≤ k % 64 := by omega
            have f5 : k % 64 - ix * p.bits % 64 = k - ix * p.bits := by omega
            simp [f1, f2, f3, f4, f5]
          · -- high part of the field
            have hkd1 : k / 64 = ix * p.bits / 64 + 1 := by omega
            rw [hkd1, getD_set_self (by simpa using hlen1)]
            simp only [Nat.testBit_or, testBit_shl64, Nat.testBit_shiftRight]
            have f1 : ¬ (p.bits - (64 - ix * p.bits % 64) ≤ k % 64) := by omega
            have f2 : 64 - ix * p.bits % 64 + (k % 64) = k - ix * p.bits := by omega
            have f3 : k % 64 < 64 := by omega
            simp [f1, f2, f3]
        · rw [if_neg hin]
          by_cases hkd : k / 64 = ix * p.bits / 64
          · -- same word as the low part, below the field
            rw [hkd, getD_set_ne (by omega), getD_set_self hlen0]
            simp only [Nat.testBit_or, testBit_shl64, Nat.testBit_shiftRight]
            have hm : k % 64 < ix * p.bits % 64 := by omega
            have f1 : ¬ (ix * p.bits % 64 + (64 - ix * p.bits % 64) ≤ k % 64) := by omega
            have f2 : 64 - ix * p.bits % 64 + (k % 64) < 64 := by omega
            have f3 : 64 - ix * p.bits % 64 + k % 64 - (64 - ix * p.bits % 64) = k % 64 := by
              omega
            have f4 : ¬ (ix * p.bits % 64 ≤ k % 64) := by omega
            have f5 : k % 64 < 64 := by omega
            simp [f1, f2, f3, f4, f5]
          · by_cases hkd1 : k / 64 = ix * p.bits / 64 + 1
            · -- same word as the high part, above the field
              rw [hkd1, getD_set_self (by simpa using hlen1)]
              simp only [Nat.testBit_or, testBit_shl64, Nat.testBit_shiftRight]
              have hm : p.bits - (64 - ix * p.bits % 64) ≤ k % 64 := by omega
              have f1 : p.bits - (64 - ix * p.bits % 64) +
                  (k % 64 - (p.bits - (64 - ix * p.bits % 64))) = k % 64 := by omega
              have f3 : k % 64 < 64 := by omega
              have f6 : val.testBit (64 - ix * p.bits % 64 + k % 64) = false :=
                Nat.testBit_lt_two_pow (Nat.lt_of_lt_of_le hval
                  (Nat.pow_le_pow_right (by norm_num) (by omega)))
              simp [hm, f1, f3, f6]
            · rw [getD_set_ne (fun h => hkd1 h.symm), getD_set_ne (fun h => hkd h.symm)]
    · -- exact boundary: 64 - off = p.bits
      rw [if_neg hB]
      have hEq : 64 - ix * p.bits % 64 = p.bits := by omega
      rw [hEq]
      refine ⟨_, rfl, rfl, rfl, rfl, ?_, ?_, ?_⟩
      · simp
      · exact words64_set hw
          (Nat.or_lt_two_pow
            (Nat.or_lt_two_pow (shl64_lt _ _) (shiftRight_lt64 (shl64_lt _ _) _))
            (shl64_lt _ _)) _
      · intro k
        rw [listNum_testBit (words64_set hw
              (Nat.or_lt_two_pow
                (Nat.or_lt_two_pow (shl64_lt _ _) (shiftRight_lt64 (shl64_lt _ _) _))
                (shl64_lt _ _)) _),
            listNum_testBit hw]
        by_cases hin : ix * p.bits ≤ k ∧ k < ix * p.bits + p.bits
        · rw [if_pos hin]
          have hkd : k / 64 = ix * p.bits / 64 := by omega
          have hkm : k % 64 = ix * p.bits % 64 + (k - ix * p.bits) := by omega
          rw [hkd, getD_set_self hlen0]
          simp only [Nat.testBit_or, testBit_shl64, Nat.testBit_shiftRight]
          have f1 : ¬ (ix * p.bits % 64 + p.bits ≤ k % 64) := by omega
          have f2 : ¬ (p.bits + k % 64 < 64) := by omega
          have f3 : k % 64 < 64 := by omega
          have f4 : ix * p.bits % 64 ≤ k % 64 := by omega
          have f5 : k % 64 - ix * p.bits % 64 = k - ix * p.bits := by omega
          simp [f1, f2, f3, f4, f5]
        · rw [if_neg hin]
          by_cases hkd : k / 64 = ix * p.bits / 64
          · rw [hkd, getD_set_self hlen0]
            simp only [Nat.testBit_or, testBit_shl64, Nat.testBit_shiftRight]
            have hm : k % 64 < ix * p.bits % 64 := by omega
            have f1 : ¬ (ix * p.bits % 64 + p.bits ≤ k % 64) := by omega
            have f2 : p.bits + k % 64 < 64 := by omega
            have f3 : p.bits + k % 64 - p.bits = k % 64 := by omega
            have f4 : ¬ (ix * p.bits % 64 ≤ k % 64) := by omega
            have f5 : k % 64 < 64 := by omega
            simp [f1, f2, f3, f4, f5]
          · rw [getD_set_ne (fun h => hkd h.symm)]



/-- Well-formedness of a `packed` vector: the shape produced by
`BitPackedVectorAllocate` and preserved by `Set`. -/
def Packed.WF (p : Packed) : Prop :=
  1 ≤ p.bits ∧ p.bits ≤ 64 ∧
  p.forbiddenMask = genForbiddenMask p.bits ∧
  p.space.length = wordsRequired p.bits p.size ∧
  words64 p.space ∧
  p.size * p.bits < 2 ^ 64

theorem wordsRequired_no_wrap {bits count : Nat} (h : count * bits < 2 ^ 64) :
    wordsRequired bits count = count * bits / 64 + 1 := by
  unfold wordsRequired wordMod
  have h2 : count * bits % 2 ^ 64 = count * bits := Nat.mod_eq_of_lt h
  rw [h2]

theorem Packed.WF.fit {p : Packed} (hWF : p.WF) {i : Nat} (hi : i < p.size) :
    i * p.bits + p.bits ≤ 64 * p.space.length := by
  obtain ⟨hb1, hb2, hmask, hlen, hw, hsz⟩ := hWF
  rw [hlen, wordsRequired_no_wrap hsz]
  have h1 : i * p.bits + p.bits ≤ p.size * p.bits := by
    have := Nat.succ_le_of_lt hi
    calc i * p.bits + p.bits = (i + 1) * p.bits := by ring
    _ ≤ p.size * p.bits := Nat.mul_le_mul_right _ this
  omega

theorem BitPackedVectorAllocate_WF {bits size : Nat} (hb1 : 1 ≤ bits) (hb2 : bits ≤ 64)
    (hsz : size * bits < 2 ^ 64) :
    ∃ p : Packed, BitPackedVectorAllocate bits size = some p ∧ p.WF ∧
      p.bits = bits ∧ p.size = size := by
  refine ⟨⟨genForbiddenMask bits, bits, List.replicate (wordsRequired bits size) 0, size⟩,
    ?_, ?_, rfl, rfl⟩
  · rw [BitPackedVectorAllocate, if_neg (by omega)]
  · refine ⟨hb1, hb2, rfl, by simp, ?_, hsz⟩
    intro x hx
    have := List.eq_of_mem_replicate hx
    subst this
    norm_num

set_option maxHeartbeats 1000000 in
/-- C3: on a well-formed bit-packed vector with element width `w ∈ [1,64]`,
`Set i v` (with `i` in range and `v < 2^w`) succeeds, a subsequent `Get i`
returns `v`, and `Get j` is unchanged for every other in-range index `j` —
including when the `w`-bit field straddles a 64-bit word boundary. -/
theorem packed_set_get_frame (p : Packed) (i v : Nat)
    (hWF : p.WF) (hi : i < p.size) (hv : v < 2 ^ p.bits) :
    ∃ q : Packed, p.Set i v = some q ∧ q.WF ∧
      q.Get i = some v ∧
      ∀ j, j < p.size → j ≠ i → q.Get j = p.Get j := by
  obtain ⟨hb1, hb2, hmask, hlen, hw, hsz⟩ := hWF
  obtain ⟨q, hset, hqbits, hqsize, hqmask, hqlen, hqw, hchar⟩ :=
    p.set_spec i v hb1 hb2 hw (Packed.WF.fit ⟨hb1, hb2, hmask, hlen, hw, hsz⟩ hi) hmask hv
  have hqWF : q.WF := by
    refine ⟨hqbits ▸ hb1, hqbits ▸ hb2, ?_, ?_, hqw, ?_⟩
    · rw [hqmask, hmask, hqbits]
    · rw [hqlen, hlen, hqbits, hqsize]
    · rw [hqbits, hqsize]; exact hsz
  have hqfit : ∀ m, m < q.size → m * q.bits + q.bits ≤ 64 * q.space.length :=
    fun m hm => Packed.WF.fit hqWF hm
  refine ⟨q, hset, hqWF, ?_, ?_⟩
  · rw [Packed.get_spec q i (hqbits ▸ hb1) (hqbits ▸ hb2) hqw
        (hqfit i (hqsize ▸ hi))]
    congr 1
    apply Nat.eq_of_testBit_eq
    intro t
    rw [Nat.testBit_mod_two_pow, Nat.testBit_shiftRight, hchar, hqbits]
    by_cases ht : t < p.bits
    · have hmem : i * p.bits ≤ i * p.bits + t ∧ i * p.bits + t < i * p.bits + p.bits := by
        omega
      rw [if_pos hmem]
      simp [ht]
    · have : v.testBit t = false :=
        Nat.testBit_lt_two_pow (Nat.lt_of_lt_of_le hv
          (Nat.pow_le_pow_right (by norm_num) (by omega)))
      simp [ht, this]
  · intro j hj hji
    rw [Packed.get_spec q j (hqbits ▸ hb1) (hqbits ▸ hb2) hqw (hqfit j (hqsize ▸ hj)),
        Packed.get_spec p j hb1 hb2 hw (Packed.WF.fit ⟨hb1, hb2, hmask, hlen, hw, hsz⟩ hj)]
    congr 1
    apply Nat.eq_of_testBit_eq
    intro t
    rw [Nat.testBit_mod_two_pow, Nat.testBit_mod_two_pow, Nat.testBit_shiftRight,
        Nat.testBit_shiftRight, hqbits, hchar]
    by_cases ht : t < p.bits
    · have hout : ¬ (i * p.bits ≤ j * p.bits + t ∧ j * p.bits + t < i * p.bits + p.bits) := by
        rcases Nat.lt_or_ge j i with hlt | hge
        · intro ⟨h1, _⟩
          have hmul : (j + 1) * p.bits ≤ i * p.bits :=
            Nat.mul_le_mul_right _ (Nat.succ_le_of_lt hlt)
          have hexp : (j + 1) * p.bits = j * p.bits + p.bits := by ring
          omega
        · have hgt : i < j := Nat.lt_of_le_of_ne hge (fun h => hji h.symm)
          intro ⟨_, h2⟩
          have hmul : (i + 1) * p.bits ≤ j * p.bits :=
            Nat.mul_le_mul_right _ (Nat.succ_le_of_lt hgt)
          have hexp : (i + 1) * p.bits = i * p.bits + p.bits := by ring
          omega
      rw [if_neg hout]
    · simp [ht]


/-- Witness for `packed_set_get_frame` at a concrete input. -/
theorem packed_set_get_frame_witness :
    ∃ q : Packed, Packed.Set ⟨genForbiddenMask 3, 3, [0], 5⟩ 2 5 = some q ∧ q.WF ∧
      Packed.Get q 2 = some 5 ∧
      ∀ j, j < (⟨genForbiddenMask 3, 3, [0], 5⟩ : Packed).size → j ≠ 2 →
        Packed.Get q j = Packed.Get ⟨genForbiddenMask 3, 3, [0], 5⟩ j :=
  packed_set_get_frame ⟨genForbiddenMask 3, 3, [0], 5⟩ 2 5
    ⟨by norm_num, by norm_num, rfl, by decide,
     by intro x hx; have h := List.mem_singleton.mp hx; subst h; norm_num,
     by norm_num⟩
    (by norm_num) (by norm_num)

/-- C6 counterexample: the value `2` is outside the width-1 forbidden-mask
contract, yet `unpacked.Set` on a width-1 unpacked vector stores it without
panicking. -/
theorem set_forbidden_mask_counterexample :
    2 &&& genForbiddenMask 1 ≠ 0 ∧
    UnpackedVectorAllocate 1 1 = some [0] ∧
    unpackedSet [0] 0 2 = some [2] :=
  ⟨by decide, by decide, by decide⟩

/-- C6 amended: only the bit-packed vector enforces the forbidden-mask panic
(`Set` panics exactly on values with a bit above the element width); the
unpacked vector's `Set` stores any 64-bit value unchecked. -/
theorem set_forbidden_mask_contract :
    (∀ p : Packed, p.forbiddenMask = genForbiddenMask p.bits → p.bits ≤ 64 →
      ∀ ix val, val < 2 ^ 64 → ¬ val < 2 ^ p.bits → p.Set ix val = none) ∧
    (∀ (v : List Nat) (ix val : Nat), ix < v.length →
      unpackedSet v ix val = some (v.set ix val)) := by
  constructor
  · intro p hmask hb ix val hv64 hv
    rw [Packed.Set, if_pos]
    rw [hmask]
    exact and_genForbiddenMask_ne_zero hb hv64 hv
  · intro v ix val hix
    rw [unpackedSet, if_pos hix]

/-- Witness for `set_forbidden_mask_contract` at concrete inputs. -/
theorem set_forbidden_mask_contract_witness :
    Packed.Set ⟨genForbiddenMask 1, 1, [0], 1⟩ 0 2 = none ∧
    unpackedSet [0] 0 2 = some [2] :=
  ⟨set_forbidden_mask_contract.1 ⟨genForbiddenMask 1, 1, [0], 1⟩ rfl (by norm_num) 0 2
      (by norm_num) (by norm_num),
   set_forbidden_mask_contract.2 [0] 0 2 (by norm_num)⟩

/-- C7 counterexample: for `n = w = 1` the code allocates
`floor(1/64) + 1 = 1` word, not `ceil(1/64) + 1 = 2` as claimed. -/
theorem wordsRequired_counterexample :
    wordsRequired 1 1 = 1 ∧ (1 * 1 + 63) / 64 + 1 = 2 :=
  ⟨by decide, by decide⟩

/-- C7 amended: `wordsRequired` allocates `floor((n·w)/64) + 1` words; that
equals `ceil((n·w)/64)` when `n·w` is not a multiple of 64, and
`ceil((n·w)/64) + 1` when it is. -/
theorem wordsRequired_floor_plus_one {bits count : Nat} (h : count * bits < 2 ^ 64) :
    wordsRequired bits count =
      (count * bits + 63) / 64 + (if count * bits % 64 = 0 then 1 else 0) := by
  rw [wordsRequired_no_wrap h]
  by_cases h0 : count * bits % 64 = 0 <;> simp [h0] <;> omega

/-- Witness for `wordsRequired_floor_plus_one` at a concrete input. -/
theorem wordsRequired_floor_plus_one_witness :
    wordsRequired 1 64 = (64 * 1 + 63) / 64 + (if 64 * 1 % 64 = 0 then 1 else 0) :=
  wordsRequired_floor_plus_one (by norm_num)


/-! ## Quotient filter state machine (src/qf.go)

The `QF` struct.  The `bitset.BitSet` metadata is a `List Bool` indexed by
`slot*3 + {0,1,2}` exactly as in the source; the two `Vector`s appear with
their value semantics (`List Nat`, element `ix` read as `getD ix 0`), the
bit-width discipline of the packed representation being established
separately by `packed_set_get_frame`.  Keys enter the filter only through
the pluggable 64-bit hash function (`HashFn`), so theorems quantify over
hash values.  Go's unbounded `for` loops become fuel-indexed recursions;
`none` means the fuel ran out (the Go loop would still be running). -/

/-- `Config` (src/config.go): the fields the state machine reads. -/
structure Config where
  QBits : Nat
  BitsOfStoragePerEntry : Nat
  deriving Repr, DecidableEq

/-- `DefaultQBits` / `MinQBits` (src/config.go): 4. -/
def DefaultQBits : Nat := 4

/-- `MaxLoadingFactor = 0.65` as the exact rational of its nearest float64:
`5854679515581645 / 2^53` (`0.65` is not a binary float; `math.Float64` of
`0.65` rounds up by `1/(5·2^53)`). -/
def maxLoadNum : Nat := 5854679515581645

/-- `uint(math.Ceil(float64(size) * MaxLoadingFactor))` from
`initForQuotientBits` (src/qf.go line 159), evaluated exactly for
`size = 2^qBits`, `qBits ≤ 63`: `float64(size)` is exact, multiplying the
float64 nearest 0.65 (= `maxLoadNum/2^53`) by a power of two only shifts the
exponent and is exact, and `math.Ceil` and the `uint` conversion are exact
in this range.  The result is `⌈maxLoadNum·size/2^53⌉`. -/
def maxEntriesForSize (size : Nat) : Nat :=
  (maxLoadNum * size + 2 ^ 53 - 1) / 2 ^ 53

/-- The `rMask` loop of `initForQuotientBits`:
`for i := 0; i < rBits; i++ { rMask |= 1 << i }`. -/
def rMaskFor (rBits : Nat) : Nat :=
  (List.range rBits).foldl (fun m i => m ||| shl64 1 i) 0

/-- The `metadata` record (src/qf.go lines 162-166). -/
structure MetadataBits where
  occupied : Bool
  continuation : Bool
  shifted : Bool
  deriving Repr, DecidableEq

/-- `metadata.empty` (src/qf.go): all three flags clear. -/
def MetadataBits.empty (md : MetadataBits) : Bool :=
  !md.occupied && !md.continuation && !md.shifted

/-- `QF` (src/qf.go lines 23-34).  `hashfn` stays outside the model: keys
are identified with their 64-bit hash values. -/
structure QF where
  entries : Nat
  size : Nat
  metadata : List Bool
  remainders : List Nat
  storage : Option (List Nat)
  rBits : Nat
  qBits : Nat
  rMask : Nat
  maxEntries : Nat
  config : Config
  deriving Repr, DecidableEq

/-- `qf.Len()` (src/qf.go). -/
def QF.Len (qf : QF) : Nat := qf.entries

/-- `qf.occupied(slot)`: `metadata.Test(slot*3)`. -/
def QF.occupied (qf : QF) (slot : Nat) : Bool := qf.metadata.getD (slot * 3) false

/-- `qf.continuation(slot)`: `metadata.Test(slot*3+1)`. -/
def QF.continuation (qf : QF) (slot : Nat) : Bool := qf.metadata.getD (slot * 3 + 1) false

/-- `qf.shifted(slot)`: `metadata.Test(slot*3+2)`. -/
def QF.shifted (qf : QF) (slot : Nat) : Bool := qf.metadata.getD (slot * 3 + 2) false

/-- `qf.read(slot)` (src/qf.go lines 172-178). -/
def QF.read (qf : QF) (slot : Nat) : MetadataBits :=
  ⟨qf.occupied slot, qf.continuation slot, qf.shifted slot⟩

/-- `qf.setOccupied(slot)`. -/
def QF.setOccupied (qf : QF) (slot : Nat) : QF :=
  { qf with metadata := qf.metadata.set (slot * 3) true }

/-- `qf.setContinuationTo(slot, to)`. -/
def QF.setContinuationTo (qf : QF) (slot : Nat) (b : Bool) : QF :=
  { qf with metadata := qf.metadata.set (slot * 3 + 1) b }

/-- `qf.setShiftedTo(slot, to)`. -/
def QF.setShiftedTo (qf : QF) (slot : Nat) (b : Bool) : QF :=
  { qf with metadata := qf.metadata.set (slot * 3 + 2) b }

/-- `qf.right(&i)` (src/qf.go lines 342-347). -/
def QF.rightSlot (qf : QF) (i : Nat) : Nat := if i + 1 ≥ qf.size then 0 else i + 1

/-- `qf.left(&i)` (src/qf.go lines 349-354). -/
def QF.leftSlot (qf : QF) (i : Nat) : Nat := if i = 0 then qf.size - 1 else i - 1

/-- `qf.initForQuotientBits(qBits)` (src/qf.go lines 151-160). -/
def QF.initForQuotientBits (qf : QF) (qBits : Nat) : QF :=
  { qf with
    qBits := qBits
    size := 2 ^ qBits
    rBits := 64 - qBits
    rMask := rMaskFor (64 - qBits)
    maxEntries := maxEntriesForSize (2 ^ qBits) }

/-- `NewWithConfig(c)` (src/qf.go lines 118-143): a fresh filter; all
metadata clear, zeroed vectors, storage allocated iff
`BitsOfStoragePerEntry > 0`.  The final `maxEntries > size` consistency
panic is `none`. -/
def NewWithConfig (c : Config) : Option QF :=
  let qf : QF := ({ entries := 0, size := 0, metadata := [], remainders := [],
                    storage := none, rBits := 0, qBits := 0, rMask := 0,
                    maxEntries := 0, config := c } : QF).initForQuotientBits c.QBits
  let qf := { qf with
    metadata := List.replicate (qf.size * 3) false
    remainders := List.replicate qf.size 0
    storage := if c.BitsOfStoragePerEntry > 0 then some (List.replicate qf.size 0) else none }
  if qf.maxEntries > qf.size then none else some qf

/-- `New()` (src/qf.go lines 109-114). -/
def New : Option QF := NewWithConfig ⟨DefaultQBits, 0⟩

/-- The left scan of `findStart` (src/qf.go lines 358-368). -/
def QF.findStartLeft (qf : QF) : Nat → Nat → Nat → Nat → Option (Nat × Nat)
  | 0, _, _, _ => none
  | fuel + 1, i, runs, complete =>
    let complete := if !qf.continuation i then complete + 1 else complete
    cond (!qf.shifted i) (some (runs, complete))
      (qf.findStartLeft fuel (qf.leftSlot i)
        (if qf.occupied i then runs + 1 else runs) complete)

/-- The right scan of `findStart` (src/qf.go lines 369-375). -/
def QF.findStartRight (qf : QF) : Nat → Nat → Nat → Nat → Option Nat
  | 0, _, _, _ => none
  | fuel + 1, dq, runs, complete =>
    cond (decide (runs > complete))
      (let dq := qf.rightSlot dq
       let complete := if !qf.continuation dq then complete + 1 else complete
       qf.findStartRight fuel dq runs complete)
      (some dq)

/-- `qf.findStart(dq)` (src/qf.go lines 356-377). -/
def QF.findStart (qf : QF) (dq : Nat) : Option Nat :=
  match qf.findStartLeft (qf.size + 1) dq 1 0 with
  | none => none
  | some (runs, complete) => qf.findStartRight (qf.size + 1) dq runs complete

/-- The run walk of `lookupByHash` (src/qf.go lines 403-419). -/
def QF.lookupLoop (qf : QF) (dr : Nat) : Nat → Nat → Option (Bool × Nat)
  | 0, _ => none
  | fuel + 1, slot =>
    let sv := qf.remainders.getD slot 0
    cond (sv == dr)
      (some (true, match qf.storage with
                   | some st => st.getD slot 0
                   | none => 0))
      (cond (decide (sv > dr)) (some (false, 0))
        (let slot := qf.rightSlot slot
         cond (!qf.continuation slot) (some (false, 0))
           (qf.lookupLoop dr fuel slot)))

/-- `qf.lookupByHash(dq, dr)` (src/qf.go lines 398-421). -/
def QF.lookupByHash (qf : QF) (dq dr : Nat) : Option (Bool × Nat) :=
  if !qf.occupied dq then some (false, 0)
  else
    match qf.findStart dq with
    | none => none
    | some slot => qf.lookupLoop dr (qf.size + 1) slot

/-- `qf.hash(v)`'s split of a hash value (src/qf.go lines 429-434):
`dq = hv >> rBits`, `dr = hv & rMask`. -/
def QF.hashSplit (qf : QF) (hv : Nat) : Nat × Nat := (hv >>> qf.rBits, hv &&& qf.rMask)

/-- `qf.Lookup(key)` at the hash level (src/qf.go lines 392-396). -/
def QF.lookupHash (qf : QF) (hv : Nat) : Option (Bool × Nat) :=
  qf.lookupByHash (qf.hashSplit hv).1 (qf.hashSplit hv).2

/-- `qf.Contains(v)` (src/qf.go lines 379-384) at the hash level. -/
def QF.containsHash (qf : QF) (hv : Nat) : Option Bool :=
  match qf.lookupHash hv with
  | none => none
  | some (found, _) => some found

/-- The in-run search of `insertByHash` (src/qf.go lines 291-304):
advance while the slot is non-empty, its remainder is `< dr`, and the next
slot continues the run. -/
def QF.searchRun (qf : QF) (dr : Nat) : Nat → Nat → Option Nat
  | 0, _ => none
  | fuel + 1, slot =>
    cond ((qf.read slot).empty || decide (qf.remainders.getD slot 0 ≥ dr)) (some slot)
      (let slot := qf.rightSlot slot
       cond (!(qf.read slot).continuation) (some slot)
         (qf.searchRun dr fuel slot))

/-- The shift cascade of `insertByHash` (src/qf.go lines 321-338): write
`(contFlag, shiftedFlag, dr, value)` into `slot`, displacing the old
contents rightwards until an empty slot absorbs the cascade. -/
def QF.insertLoop (qf : QF) (runStart : Nat) (extending : Bool) :
    Nat → Nat → Nat → Nat → Bool → Bool → Option QF
  | 0, _, _, _, _, _ => none
  | fuel + 1, slot, dr, value, contFlag, shiftedFlag =>
    let drOld := qf.remainders.getD slot 0
    let qf := { qf with remainders := qf.remainders.set slot dr }
    let valueOld := match qf.storage with
                    | some st => st.getD slot 0
                    | none => value
    let qf := match qf.storage with
              | some st => { qf with storage := some (st.set slot value) }
              | none => qf
    let nxt := qf.read slot
    let nxt := if slot = runStart && extending then { nxt with continuation := true } else nxt
    let qf := qf.setContinuationTo slot contFlag
    let qf := qf.setShiftedTo slot shiftedFlag
    let slot := qf.rightSlot slot
    cond nxt.empty (some qf)
      (qf.insertLoop runStart extending fuel slot drOld valueOld nxt.continuation true)

/-- `qf.insertByHash(dq, dr, value)` (src/qf.go lines 268-340). -/
def QF.insertByHash (qf : QF) (dq dr value : Nat) : Option (Bool × QF) :=
  let md := qf.read dq
  let extendingRun := md.occupied
  let qf := qf.setOccupied dq
  if md.empty then
    let qf := { qf with
      entries := qf.entries + 1
      remainders := qf.remainders.set dq dr }
    let qf := match qf.storage with
              | some st => { qf with storage := some (st.set dq value) }
              | none => qf
    some (false, qf)
  else
    match qf.findStart dq with
    | none => none
    | some runStart =>
      match (if extendingRun then qf.searchRun dr (qf.size + 1) runStart else some runStart) with
      | none => none
      | some slot =>
        if dr = qf.remainders.getD slot 0 then
          let qf := match qf.storage with
                    | some st => { qf with storage := some (st.set slot value) }
                    | none => qf
          some (true, qf)
        else
          let qf := { qf with entries := qf.entries + 1 }
          let shiftedFlag := decide (slot ≠ dq)
          let contFlag := decide (slot ≠ runStart)
          match qf.insertLoop runStart extendingRun (qf.size + 1) slot dr value
              contFlag shiftedFlag with
          | none => none
          | some qf => some (false, qf)

/-- The doubling decision of `InsertWithValue` (src/qf.go lines 255-257):
`if qf.maxEntries <= qf.entries { qf.double() }`. -/
def QF.insertDoubles (qf : QF) : Bool := decide (qf.maxEntries ≤ qf.entries)

/-- The start-of-cluster scan of `eachHashValue` (src/qf.go lines 83-86). -/
def QF.findUnshifted (qf : QF) : Nat → Nat → Option Nat
  | 0, _ => none
  | fuel + 1, i =>
    cond (qf.read i).shifted (qf.findUnshifted fuel (qf.rightSlot i)) (some i)

/-- The torus traversal of `eachHashValue` (src/qf.go lines 89-104),
accumulating the emitted `(hash value, slot)` pairs in order. -/
def QF.eachLoop (qf : QF) (endSlot : Nat) :
    Nat → Nat → List Nat → List (Nat × Nat) → Option (List (Nat × Nat))
  | 0, _, _, _ => none
  | fuel + 1, i, stack, acc =>
    let md := qf.read i
    let stack := if !md.continuation && !stack.isEmpty then stack.tail else stack
    let stack := if md.occupied then stack ++ [i] else stack
    let acc := match stack with
               | q :: _ => acc ++ [(shl64 q qf.rBits ||| (qf.remainders.getD i 0 &&& qf.rMask), i)]
               | [] => acc
    cond (i == endSlot) (some acc)
      (qf.eachLoop endSlot fuel (qf.rightSlot i) stack acc)

/-- `qf.eachHashValue(cb)` (src/qf.go lines 79-105), with the callback
reified as the emitted list. -/
def QF.eachHashValue (qf : QF) : Option (List (Nat × Nat)) :=
  match qf.findUnshifted (qf.size + 1) 0 with
  | none => none
  | some start => qf.eachLoop (qf.leftSlot start) (qf.size + 1) start [] []

/-- `qf.double()` (src/qf.go lines 234-250): build a `QBits+1` filter and
replay every emitted hash value (with its stored payload) into it. -/
def QF.double (qf : QF) : Option QF :=
  let cfg := { qf.config with QBits := qf.config.QBits + 1 }
  match NewWithConfig cfg with
  | none => none
  | some cpy =>
    match qf.eachHashValue with
    | none => none
    | some emitted =>
      emitted.foldlM (fun cpy hs =>
        let dq := hs.1 >>> cpy.rBits
        let dr := hs.1 &&& cpy.rMask
        let v := match qf.storage with
                 | some st => st.getD hs.2 0
                 | none => 0
        match cpy.insertByHash dq dr v with
        | none => none
        | some (_, cpy2) => some cpy2) cpy

/-- `qf.InsertWithValue(v, value)` (src/qf.go lines 254-260) at the hash
level: double when at capacity, then split the (post-double) hash and
insert. -/
def QF.InsertWithValue (qf : QF) (hv value : Nat) : Option (Bool × QF) :=
  match (if qf.maxEntries ≤ qf.entries then qf.double else some qf) with
  | none => none
  | some qf =>
    let dq := hv >>> qf.rBits
    let dr := hv &&& qf.rMask
    qf.insertByHash dq dr value


theorem cond_some_elim {α : Type} {c : Bool} {a b : Option α} {r : α}
    (h : cond c a b = some r) :
    (c = true ∧ a = some r) ∨ (c = false ∧ b = some r) := by
  cases c <;> simp_all

theorem QF.insertLoop_fields {runStart : Nat} {ext : Bool} :
    ∀ fuel (qf : QF) slot dr value cf sf qf',
      qf.insertLoop runStart ext fuel slot dr value cf sf = some qf' →
      qf'.size = qf.size ∧ qf'.qBits = qf.qBits ∧ qf'.rBits = qf.rBits ∧
      qf'.rMask = qf.rMask ∧ qf'.maxEntries = qf.maxEntries ∧
      qf'.entries = qf.entries ∧ qf'.config = qf.config := by
  intro fuel
  induction fuel with
  | zero => intro qf slot dr value cf sf qf' h; simp [QF.insertLoop] at h
  | succ n ih =>
    intro qf slot dr value cf sf qf' h
    rw [QF.insertLoop] at h
    cases hst : qf.storage with
    | none =>
      simp only [hst] at h
      rcases cond_some_elim h with ⟨hc, h⟩ | ⟨hc, h⟩
      · cases h
        simp [QF.setContinuationTo, QF.setShiftedTo]
      · have := ih _ _ _ _ _ _ _ h
        simpa [QF.setContinuationTo, QF.setShiftedTo] using this
    | some st =>
      simp only [hst] at h
      rcases cond_some_elim h with ⟨hc, h⟩ | ⟨hc, h⟩
      · cases h
        simp [QF.setContinuationTo, QF.setShiftedTo]
      · have := ih _ _ _ _ _ _ _ h
        simpa [QF.setContinuationTo, QF.setShiftedTo] using this

theorem QF.insertByHash_fields (qf : QF) (dq dr v : Nat) (b : Bool) (qf' : QF)
    (h : qf.insertByHash dq dr v = some (b, qf')) :
    qf'.size = qf.size ∧ qf'.qBits = qf.qBits ∧ qf'.rBits = qf.rBits ∧
    qf'.rMask = qf.rMask ∧ qf'.maxEntries = qf.maxEntries ∧ qf'.config = qf.config := by
  simp only [QF.insertByHash, QF.setOccupied] at h
  split at h
  · -- easy case: the canonical slot was empty
    cases hst : qf.storage <;> simp only [hst] at h <;>
      (injection h with h1; injection h1 with hb hq; subst hq; simp)
  · -- non-empty canonical slot
    split at h
    · exact absurd h (by simp)
    · split at h
      · exact absurd h (by simp)
      · split at h
        · -- update-in-place: payload overwrite
          cases hst : qf.storage <;> simp only [hst] at h <;>
            (injection h with h1; injection h1 with hb hq; subst hq; simp)
        · -- cascade insert via insertLoop
          split at h
          · exact absurd h (by simp)
          · rename_i qf2 hloop
            injection h with h1
            injection h1 with hb hq
            subst hq
            have hf := QF.insertLoop_fields _ _ _ _ _ _ _ _ hloop
            simp only at hf
            exact ⟨by simpa using hf.1, by simpa using hf.2.1, by simpa using hf.2.2.1,
              by simpa using hf.2.2.2.1, by simpa using hf.2.2.2.2.1,
              by simpa using hf.2.2.2.2.2.2⟩

set_option maxHeartbeats 1000000 in
theorem maxEntriesForSize_eq_exact_ceil :
    ∀ q, q < 56 → maxEntriesForSize (2 ^ q) = (13 * 2 ^ q + 19) / 20 := by decide

theorem maxEntries_counterexample_nums :
    maxEntriesForSize (2 ^ 56) = 46837436124653160 ∧
    (13 * 2 ^ 56 + 19) / 20 = 46837436124653159 := by decide

/-- C5 counterexample: with `qBits = 56` the float64 capacity differs from
`⌈S·0.65⌉`: a filter sized by `initForQuotientBits 56` holding exactly
`⌈S·0.65⌉` entries does not trigger doubling. -/
theorem maxEntries_counterexample :
    QF.insertDoubles
      (QF.initForQuotientBits ⟨46837436124653159, 0, [], [], none, 0, 0, 0, 0, ⟨0, 0⟩⟩ 56) =
      false ∧
    (13 * (QF.initForQuotientBits
        ⟨46837436124653159, 0, [], [], none, 0, 0, 0, 0, ⟨0, 0⟩⟩ 56).size + 19) / 20 ≤
      46837436124653159 ∧
    maxEntriesForSize (2 ^ 56) = 46837436124653160 := by decide

/-- C5 (amended): for `qBits < 56` the code's capacity equals
`C = ⌈S·0.65⌉ = (13·S + 19)/20` exactly, an insert triggers `double()` iff
`entries ≥ C`, and when it does not double, `insertByHash` leaves the table
size unchanged.  (For `qBits ≥ 56` the code's capacity is
`⌈S · c⌉` where `c = 5854679515581645/2^53` is the float64 nearest 0.65,
which first differs from `⌈S·0.65⌉` at `qBits = 56`.) -/
theorem insert_double_trigger (qf : QF) (hq : qf.qBits < 56)
    (hs : qf.size = 2 ^ qf.qBits) (hm : qf.maxEntries = maxEntriesForSize qf.size) :
    (qf.insertDoubles = true ↔ (13 * qf.size + 19) / 20 ≤ qf.entries) ∧
    (∀ dq dr v b qf', qf.insertByHash dq dr v = some (b, qf') → qf'.size = qf.size) := by
  constructor
  · simp only [QF.insertDoubles, hm, hs, maxEntriesForSize_eq_exact_ceil _ hq,
      decide_eq_true_eq]
  · intro dq dr v b qf' h
    exact (QF.insertByHash_fields qf dq dr v b qf' h).1

/-- Witness for `insert_double_trigger` at a concrete input. -/
theorem insert_double_trigger_witness :
    ((QF.initForQuotientBits ⟨3, 0, [], [], none, 0, 0, 0, 0, ⟨0, 0⟩⟩ 4).insertDoubles = true ↔
      (13 * (QF.initForQuotientBits ⟨3, 0, [], [], none, 0, 0, 0, 0, ⟨0, 0⟩⟩ 4).size + 19) / 20 ≤
        (QF.initForQuotientBits ⟨3, 0, [], [], none, 0, 0, 0, 0, ⟨0, 0⟩⟩ 4).entries) ∧
    (∀ dq dr v b qf',
      (QF.initForQuotientBits ⟨3, 0, [], [], none, 0, 0, 0, 0, ⟨0, 0⟩⟩ 4).insertByHash dq dr v =
        some (b, qf') →
      qf'.size = (QF.initForQuotientBits ⟨3, 0, [], [], none, 0, 0, 0, 0, ⟨0, 0⟩⟩ 4).size) :=
  insert_double_trigger _ (by decide) (by decide) (by decide)

theorem getD_replicate_false (n i : Nat) :
    (List.replicate n false).getD i false = false := by
  rcases Nat.lt_or_ge i n with h | h
  · simp [List.getD, List.getElem?_replicate, h]
  · simp [List.getD, List.getElem?_replicate, Nat.not_lt.2 h]

/-- C10: a filter fresh from `NewWithConfig` (before any insert) has no
occupied bucket, so `Lookup` returns `(false, 0)` and `Contains` returns
`false` for every key — the key enters only through its hash value, and
every hash value (including the hash of the zero-length key) is covered. -/
theorem new_filter_lookup_empty (c : Config) (qf : QF)
    (hnew : NewWithConfig c = some qf) :
    qf.Len = 0 ∧
    ∀ hv, qf.lookupHash hv = some (false, 0) ∧ qf.containsHash hv = some false := by
  rw [NewWithConfig] at hnew
  have key : ∀ (q : QF), q.metadata = List.replicate (q.size * 3) false →
      ∀ hv, q.lookupHash hv = some (false, 0) ∧ q.containsHash hv = some false := by
    intro q hq hv
    have hocc : ∀ dq, q.occupied dq = false := by
      intro dq
      rw [QF.occupied, hq]
      exact getD_replicate_false _ _
    constructor
    · rw [QF.lookupHash, QF.lookupByHash]
      simp [hocc]
    · rw [QF.containsHash, QF.lookupHash, QF.lookupByHash]
      simp [hocc]
  split at hnew
  · split at hnew
    · exact absurd hnew (by simp)
    · injection hnew with hq
      subst hq
      exact ⟨rfl, key _ rfl⟩
  · split at hnew
    · exact absurd hnew (by simp)
    · injection hnew with hq
      subst hq
      exact ⟨rfl, key _ rfl⟩

/-- Witness for `new_filter_lookup_empty` at a concrete configuration. -/
theorem new_filter_lookup_empty_witness :
    (⟨0, 16, List.replicate 48 false, List.replicate 16 0, none, 60, 4, rMaskFor 60,
        11, ⟨4, 0⟩⟩ : QF).Len = 0 ∧
    ∀ hv, (⟨0, 16, List.replicate 48 false, List.replicate 16 0, none, 60, 4, rMaskFor 60,
        11, ⟨4, 0⟩⟩ : QF).lookupHash hv = some (false, 0) ∧
      (⟨0, 16, List.replicate 48 false, List.replicate 16 0, none, 60, 4, rMaskFor 60,
        11, ⟨4, 0⟩⟩ : QF).containsHash hv = some false :=
  new_filter_lookup_empty ⟨4, 0⟩ _ (by decide)

/-! ### State-threaded transliteration of the read-only operations (C9)

Each Go call that receives the filter pointer returns the (possibly
updated) filter, so a mutation anywhere on the `Len`/`Lookup`/`Contains`
code path would surface as a changed filter in the final result.  The
primitive observers (`bitset.Test`, `Vector.Get`) return the filter
unchanged — they read; the loop structure is identical to the pure
transliteration above. -/

/-- `bitset.Test(slot*3)` as a state transformer. -/
def QF.occupiedS (qf : QF) (slot : Nat) : Bool × QF := (qf.occupied slot, qf)

/-- `bitset.Test(slot*3+1)` as a state transformer. -/
def QF.continuationS (qf : QF) (slot : Nat) : Bool × QF := (qf.continuation slot, qf)

/-- `bitset.Test(slot*3+2)` as a state transformer. -/
def QF.shiftedS (qf : QF) (slot : Nat) : Bool × QF := (qf.shifted slot, qf)

/-- `remainders.Get(slot)` as a state transformer. -/
def QF.remaindersGetS (qf : QF) (slot : Nat) : Nat × QF := (qf.remainders.getD slot 0, qf)

/-- `storage.Get(slot)` (0 when no storage) as a state transformer. -/
def QF.storageGetS (qf : QF) (slot : Nat) : Nat × QF :=
  (match qf.storage with
   | some st => st.getD slot 0
   | none => 0, qf)

/-- The left scan of `findStart`, state-threaded. -/
def QF.findStartLeftS (qf : QF) : Nat → Nat → Nat → Nat → Option ((Nat × Nat) × QF)
  | 0, _, _, _ => none
  | fuel + 1, i, runs, complete =>
    let (c1, qf) := qf.continuationS i
    let complete := if !c1 then complete + 1 else complete
    let (s1, qf) := qf.shiftedS i
    cond (!s1) (some ((runs, complete), qf))
      (let (o1, qf) := qf.occupiedS i
       qf.findStartLeftS fuel (qf.leftSlot i) (if o1 then runs + 1 else runs) complete)

/-- The right scan of `findStart`, state-threaded. -/
def QF.findStartRightS (qf : QF) : Nat → Nat → Nat → Nat → Option (Nat × QF)
  | 0, _, _, _ => none
  | fuel + 1, dq, runs, complete =>
    cond (decide (runs > complete))
      (let dq := qf.rightSlot dq
       let (c1, qf) := qf.continuationS dq
       let complete := if !c1 then complete + 1 else complete
       qf.findStartRightS fuel dq runs complete)
      (some (dq, qf))

/-- `findStart`, state-threaded. -/
def QF.findStartS (qf : QF) (dq : Nat) : Option (Nat × QF) :=
  match qf.findStartLeftS (qf.size + 1) dq 1 0 with
  | none => none
  | some (rc, qf) => qf.findStartRightS (qf.size + 1) dq rc.1 rc.2

/-- The run walk of `lookupByHash`, state-threaded. -/
def QF.lookupLoopS (qf : QF) (dr : Nat) : Nat → Nat → Option ((Bool × Nat) × QF)
  | 0, _ => none
  | fuel + 1, slot =>
    let (sv, qf) := qf.remaindersGetS slot
    cond (sv == dr)
      (let (value, qf) := qf.storageGetS slot
       some ((true, value), qf))
      (cond (decide (sv > dr)) (some ((false, 0), qf))
        (let slot := qf.rightSlot slot
         let (c1, qf) := qf.continuationS slot
         cond (!c1) (some ((false, 0), qf)) (qf.lookupLoopS dr fuel slot)))

/-- `lookupByHash`, state-threaded. -/
def QF.lookupByHashS (qf : QF) (dq dr : Nat) : Option ((Bool × Nat) × QF) :=
  let (o1, qf) := qf.occupiedS dq
  if !o1 then some ((false, 0), qf)
  else
    match qf.findStartS dq with
    | none => none
    | some (slot, qf) => qf.lookupLoopS dr (qf.size + 1) slot

/-- `Lookup`, state-threaded, at the hash level. -/
def QF.lookupHashS (qf : QF) (hv : Nat) : Option ((Bool × Nat) × QF) :=
  qf.lookupByHashS (qf.hashSplit hv).1 (qf.hashSplit hv).2

/-- `Contains`, state-threaded, at the hash level. -/
def QF.containsHashS (qf : QF) (hv : Nat) : Option (Bool × QF) :=
  match qf.lookupHashS hv with
  | none => none
  | some (r, qf) => some (r.1, qf)

/-- `Len`, state-threaded. -/
def QF.LenS (qf : QF) : Nat × QF := (qf.entries, qf)

theorem QF.findStartLeftS_frame (qf : QF) :
    ∀ fuel i runs complete,
      qf.findStartLeftS fuel i runs complete =
        (qf.findStartLeft fuel i runs complete).map (fun x => (x, qf)) := by
  intro fuel
  induction fuel with
  | zero => intro i runs complete; simp [QF.findStartLeftS, QF.findStartLeft]
  | succ n ih =>
    intro i runs complete
    rw [QF.findStartLeftS, QF.findStartLeft]
    simp only [QF.continuationS, QF.occupiedS, QF.shiftedS]
    cases hs : qf.shifted i <;> simp [hs, ih]

theorem QF.findStartRightS_frame (qf : QF) :
    ∀ fuel dq runs complete,
      qf.findStartRightS fuel dq runs complete =
        (qf.findStartRight fuel dq runs complete).map (fun x => (x, qf)) := by
  intro fuel
  induction fuel with
  | zero => intro dq runs complete; simp [QF.findStartRightS, QF.findStartRight]
  | succ n ih =>
    intro dq runs complete
    rw [QF.findStartRightS, QF.findStartRight]
    simp only [QF.continuationS]
    cases hrc : decide (runs > complete) <;> simp [hrc, ih]

theorem QF.findStartS_frame (qf : QF) (dq : Nat) :
    qf.findStartS dq = (qf.findStart dq).map (fun x => (x, qf)) := by
  rw [QF.findStartS, QF.findStart, QF.findStartLeftS_frame]
  cases hl : qf.findStartLeft (qf.size + 1) dq 1 0 with
  | none => simp
  | some rc => simp [QF.findStartRightS_frame]

theorem QF.lookupLoopS_frame (qf : QF) (dr : Nat) :
    ∀ fuel slot,
      qf.lookupLoopS dr fuel slot = (qf.lookupLoop dr fuel slot).map (fun x => (x, qf)) := by
  intro fuel
  induction fuel with
  | zero => intro slot; simp [QF.lookupLoopS, QF.lookupLoop]
  | succ n ih =>
    intro slot
    rw [QF.lookupLoopS, QF.lookupLoop]
    simp only [QF.remaindersGetS, QF.storageGetS, QF.continuationS]
    cases he : qf.remainders.getD slot 0 == dr <;>
      cases hg : decide (qf.remainders.getD slot 0 > dr) <;>
        cases hc : qf.continuation (qf.rightSlot slot) <;>
          simp [he, hg, hc, ih]

/-- C9: the read operations (`Len`, `Lookup`, `Contains`) do not mutate the
filter: their state-threaded transliterations return the input filter
unchanged alongside the same value as the pure functions. -/
theorem reads_do_not_mutate (qf : QF) :
    qf.LenS = (qf.Len, qf) ∧
    (∀ dq dr, qf.lookupByHashS dq dr = (qf.lookupByHash dq dr).map (fun r => (r, qf))) ∧
    (∀ hv, qf.lookupHashS hv = (qf.lookupHash hv).map (fun r => (r, qf))) ∧
    (∀ hv, qf.containsHashS hv =
      (qf.containsHash hv).map (fun b => (b, qf))) := by
  have hmain : ∀ dq dr, qf.lookupByHashS dq dr =
      (qf.lookupByHash dq dr).map (fun r => (r, qf)) := by
    intro dq dr
    rw [QF.lookupByHashS, QF.lookupByHash]
    simp only [QF.occupiedS]
    cases ho : qf.occupied dq with
    | false => simp
    | true =>
      rw [QF.findStartS_frame]
      cases hf : qf.findStart dq with
      | none => simp [hf]
      | some slot => simp [hf, QF.lookupLoopS_frame]
  refine ⟨rfl, hmain, fun hv => hmain _ _, fun hv => ?_⟩
  rw [QF.containsHashS, QF.containsHash, QF.lookupHashS, QF.lookupHash, hmain]
  cases hl : qf.lookupByHash (qf.hashSplit hv).1 (qf.hashSplit hv).2 with
  | none => simp
  | some r => simp


/-! ## Disk (read-only, file-backed) lookup (src/disk.go)

`Disk.Lookup` (src/disk.go lines 112-133) wraps its fallible positioned
reads (`extReader.Read`, which returns `(uint64, error)`) into plain
`readFn` closures that `panic(fmt.Sprintf("error: %s", err))` on a failed
read, and passes them to the generic `lookupByHash`.  Reads are modelled as
`Nat → Except String Nat`; a `DiskOutcome` separates a normal result from a
panic — note that the Go signature `Lookup([]byte) (bool, uint64)` has no
error result at all. -/

/-- How a call of `Disk.Lookup` ends: normally, or by the panic raised
inside the read closures.  There is no error-return constructor because the
Go signature has none. -/
inductive DiskOutcome where
  | ok (res : Bool × Nat)
  | panicked (msg : String)
  deriving Repr, DecidableEq

/-- Modelled from the spec: the slot layout of the current `Filter`
implementation (spec §3.3), whose source is not under src/: a slot is one
packed word, bits 0-2 are `occupied`/`continuation`/`shifted`, the high
bits the remainder. -/
def slotMd (w : Nat) : MetadataBits := ⟨w.testBit 0, w.testBit 1, w.testBit 2⟩

/-- Modelled from the spec (§3.3): the remainder stored in a slot word. -/
def slotRem (w : Nat) : Nat := w >>> 3

/-- Slot index stepping left on the torus (spec §3.4). -/
def dLeft (size i : Nat) : Nat := if i = 0 then size - 1 else i - 1

/-- Slot index stepping right on the torus (spec §3.4). -/
def dRight (size i : Nat) : Nat := if i + 1 ≥ size then 0 else i + 1

/-- Modelled from the spec: the left scan of `find_start` (spec §4.1) over
a fallible slot reader; the generic `lookupByHash`/`findStart` of the
current implementation is not under src/.  `none` is fuel exhaustion, a
read error propagates. -/
def dFindStartLeft (rd : Nat → Except String Nat) (size : Nat) :
    Nat → Nat → Nat → Nat → Option (Except String (Nat × Nat))
  | 0, _, _, _ => none
  | fuel + 1, i, runs, complete =>
    match rd i with
    | .error e => some (.error e)
    | .ok w =>
      let md := slotMd w
      let complete := if !md.continuation then complete + 1 else complete
      cond (!md.shifted) (some (.ok (runs, complete)))
        (dFindStartLeft rd size fuel (dLeft size i)
          (if md.occupied then runs + 1 else runs) complete)

/-- Modelled from the spec: the right scan of `find_start` (spec §4.1). -/
def dFindStartRight (rd : Nat → Except String Nat) (size : Nat) :
    Nat → Nat → Nat → Nat → Option (Except String Nat)
  | 0, _, _, _ => none
  | fuel + 1, dq, runs, complete =>
    cond (decide (runs > complete))
      (let dq := dRight size dq
       match rd dq with
       | .error e => some (.error e)
       | .ok w =>
         let complete := if !(slotMd w).continuation then complete + 1 else complete
         dFindStartRight rd size fuel dq runs complete)
      (some (.ok dq))

/-- Modelled from the spec: the run walk of the generic lookup (spec §4.1,
Lookup step 3), reading the payload through the optional storage reader. -/
def dLookupWalk (rd : Nat → Except String Nat) (srd : Option (Nat → Except String Nat))
    (size dr : Nat) : Nat → Nat → Option (Except String (Bool × Nat))
  | 0, _ => none
  | fuel + 1, slot =>
    match rd slot with
    | .error e => some (.error e)
    | .ok w =>
      let rs := slotRem w
      cond (rs == dr)
        (match srd with
         | some f =>
           match f slot with
           | .error e => some (.error e)
           | .ok v => some (.ok (true, v))
         | none => some (.ok (true, 0)))
        (cond (decide (rs > dr)) (some (.ok (false, 0)))
          (let slot := dRight size slot
           match rd slot with
           | .error e => some (.error e)
           | .ok w2 =>
             cond (!(slotMd w2).continuation) (some (.ok (false, 0)))
               (dLookupWalk rd srd size dr fuel slot)))

/-- Modelled from the spec: the generic `lookupByHash(dq, dr, size,
filterFn, storageFn)` (spec §4.1) over fallible readers. -/
def dLookupByHash (rd : Nat → Except String Nat) (srd : Option (Nat → Except String Nat))
    (size dq dr : Nat) : Option (Except String (Bool × Nat)) :=
  match rd dq with
  | .error e => some (.error e)
  | .ok w =>
    let md := slotMd w
    if !md.occupied then some (.ok (false, 0))
    else
      match (cond (!md.shifted) (some (.ok dq))
             (match dFindStartLeft rd size (size + 1) dq 1 0 with
              | none => none
              | some (.error e) => some (.error e)
              | some (.ok rc) => dFindStartRight rd size (size + 1) dq rc.1 rc.2)) with
      | none => none
      | some (.error e) => some (.error e)
      | some (.ok start) => dLookupWalk rd srd size dr (size + 1) start

/-- `Disk.Lookup` (src/disk.go lines 112-133): the `filterFn`/`storageFn`
closures convert any read error into a panic, so a read failure surfaces as
a panic of the whole lookup, never as a returned error. -/
def DiskLookup (size : Nat) (filterRead : Nat → Except String Nat)
    (storageRead : Option (Nat → Except String Nat)) (dq dr : Nat) : Option DiskOutcome :=
  match dLookupByHash filterRead storageRead size dq dr with
  | none => none
  | some (.ok r) => some (.ok r)
  | some (.error e) => some (.panicked ("error: " ++ e))

/-- C8 counterexample: a Disk filter whose backing reads fail panics on
`Lookup` instead of returning an error (the Go `Lookup` signature has no
error result). -/
theorem disk_lookup_panic_counterexample :
    DiskLookup 16 (fun _ => Except.error "io") none 0 0 = some (.panicked "error: io") := by
  decide

/-- C8 amended: when the slot read at the canonical bucket fails, the
`Disk.Lookup` call ends in a panic carrying the wrapped error message; no
error value is returned to the caller. -/
theorem disk_lookup_panics (size : Nat) (fr : Nat → Except String Nat)
    (srd : Option (Nat → Except String Nat)) (dq dr : Nat) (e : String)
    (h : fr dq = Except.error e) :
    DiskLookup size fr srd dq dr = some (.panicked ("error: " ++ e)) := by
  rw [DiskLookup, dLookupByHash, h]

/-- Witness for `disk_lookup_panics` at a concrete input. -/
theorem disk_lookup_panics_witness :
    DiskLookup 8 (fun _ => Except.error "short read") none 3 5 =
      some (.panicked ("error: " ++ "short read")) :=
  disk_lookup_panics 8 _ none 3 5 "short read" rfl

/-! ## Serialization (src/serialize.go via src/unnamed/part_004, vector
formats src/unnamed/part_006 and src/unpacked.go, helpers src/util.go)

Streams are byte lists (`List Nat`, each entry `< 256` when produced by the
encoder); all integers are little-endian uint64 as written by
`encoding/binary`; reading a short stream is `none` (an I/O error in Go).
The host is little-endian, so `writeUintSlice`'s raw-memory fast path
produces exactly the little-endian bytes. -/

/-- The 8 little-endian bytes of a uint64 (`binary.Write`/`writeUintSlice`). -/
def u64le (n : Nat) : List Nat :=
  [n % 256, (n >>> 8) % 256, (n >>> 16) % 256, (n >>> 24) % 256,
   (n >>> 32) % 256, (n >>> 40) % 256, (n >>> 48) % 256, (n >>> 56) % 256]

/-- `binary.Read` of a uint64 (`binary.LittleEndian.Uint64`):
`uint64(b[0]) | uint64(b[1])<<8 | ... | uint64(b[7])<<56`. -/
def readU64 : List Nat → Option (Nat × List Nat)
  | b0 :: b1 :: b2 :: b3 :: b4 :: b5 :: b6 :: b7 :: rest =>
    some (b0 ||| b1 <<< 8 ||| b2 <<< 16 ||| b3 <<< 24 ||| b4 <<< 32 |||
          b5 <<< 40 ||| b6 <<< 48 ||| b7 <<< 56, rest)
  | _ => none

theorem asmLE_eq (n : Nat) (hn : n < 2 ^ 64) :
    n % 256 ||| ((n >>> 8) % 256) <<< 8 ||| ((n >>> 16) % 256) <<< 16 |||
      ((n >>> 24) % 256) <<< 24 ||| ((n >>> 32) % 256) <<< 32 |||
      ((n >>> 40) % 256) <<< 40 ||| ((n >>> 48) % 256) <<< 48 |||
      ((n >>> 56) % 256) <<< 56 = n := by
  apply Nat.eq_of_testBit_eq
  intro j
  have h256 : (256 : Nat) = 2 ^ 8 := by norm_num
  simp only [h256, Nat.testBit_or, Nat.testBit_shiftLeft, Nat.testBit_mod_two_pow,
    Nat.testBit_shiftRight]
  by_cases h64 : j < 64
  · interval_cases j <;> simp
  · have hnb : n.testBit j = false :=
      Nat.testBit_lt_two_pow
        (Nat.lt_of_lt_of_le hn (Nat.pow_le_pow_right (by norm_num) (by omega)))
    have d0 : ¬ j < 8 := by omega
    have d1 : ¬ j - 8 < 8 := by omega
    have d2 : ¬ j - 16 < 8 := by omega
    have d3 : ¬ j - 24 < 8 := by omega
    have d4 : ¬ j - 32 < 8 := by omega
    have d5 : ¬ j - 40 < 8 := by omega
    have d6 : ¬ j - 48 < 8 := by omega
    have d7 : ¬ j - 56 < 8 := by omega
    simp [hnb, d0, d1, d2, d3, d4, d5, d6, d7]

theorem readU64_u64le (n : Nat) (hn : n < 2 ^ 64) (rest : List Nat) :
    readU64 (u64le n ++ rest) = some (n, rest) := by
  simp only [u64le, List.cons_append, List.nil_append, readU64]
  rw [asmLE_eq n hn]

/-- `writeUintSlice` (src/util.go): a uint64 length then the raw
little-endian words. -/
def writeUintSlice (v : List Nat) : List Nat :=
  u64le v.length ++ v.flatMap u64le

/-- The word-reading part of `readUintSlice`. -/
def readWords : Nat → List Nat → Option (List Nat × List Nat)
  | 0, s => some ([], s)
  | n + 1, s =>
    match readU64 s with
    | none => none
    | some (w, s) =>
      match readWords n s with
      | none => none
      | some (ws, s) => some (w :: ws, s)

/-- `readUintSlice` (src/util.go): read a uint64 length, then that many
words. -/
def readUintSlice (s : List Nat) : Option (List Nat × List Nat) :=
  match readU64 s with
  | none => none
  | some (len, s) => readWords len s

theorem readWords_flat (v : List Nat) (hv : ∀ w ∈ v, w < 2 ^ 64) (rest : List Nat) :
    readWords v.length (v.flatMap u64le ++ rest) = some (v, rest) := by
  induction v with
  | nil => simp [readWords]
  | cons w ws ih =>
    have hw : w < 2 ^ 64 := hv w (List.mem_cons_self _ _)
    have hws : ∀ x ∈ ws, x < 2 ^ 64 := fun x hx => hv x (List.mem_cons_of_mem _ hx)
    simp only [List.length_cons, List.flatMap_cons, List.append_assoc, readWords,
      readU64_u64le w hw, ih hws]

theorem readUintSlice_write (v : List Nat) (hv : ∀ w ∈ v, w < 2 ^ 64)
    (hlen : v.length < 2 ^ 64) (rest : List Nat) :
    readUintSlice (writeUintSlice v ++ rest) = some (v, rest) := by
  rw [writeUintSlice, List.append_assoc, readUintSlice, readU64_u64le _ hlen]
  exact readWords_flat v hv rest

/-! ### The current `Filter` and its stream format (src/unnamed/part_004) -/

/-- A `Vector` as owned by the current `Filter`: bit-packed
(src/unnamed/part_006) or unpacked (src/unpacked.go). -/
inductive FVec where
  | packed (p : Packed)
  | unpacked (words : List Nat)
  deriving Repr, DecidableEq

/-- `Filter` (the current implementation; its struct is read through
src/unnamed/part_004, src/disk.go and src/reader.go).  `config.BitPacked`
and `config.BitsOfStoragePerEntry` appear as `bitPacked`/`storageBits`. -/
structure Filter where
  entries : Nat
  size : Nat
  qBits : Nat
  rBits : Nat
  rMask : Nat
  maxEntries : Nat
  storageBits : Nat
  bitPacked : Bool
  filter : FVec
  storage : Option FVec
  deriving Repr, DecidableEq

/-- `Filter.Len` (spec §6.3): the stored entry count. -/
def Filter.Len (f : Filter) : Nat := f.entries

/-- Modelled from the spec (§3.1): `Filter.initForQuotientBits` of the
current implementation is not under src/ (src/unnamed/part_004 line 100
calls it); it mirrors `QF.initForQuotientBits` (src/qf.go lines 151-160). -/
def Filter.initFor (f : Filter) (qBits : Nat) : Filter :=
  { f with
    qBits := qBits
    size := 2 ^ qBits
    rBits := 64 - qBits
    rMask := rMaskFor (64 - qBits)
    maxEntries := maxEntriesForSize (2 ^ qBits) }

/-- `packed.WriteTo` (src/unnamed/part_006): the `packedHeader`
`{Version = 8, Bits, Size}` then `writeUintSlice(space)`. -/
def FVec.writeTo : FVec → List Nat
  | .packed p => u64le 8 ++ u64le p.bits ++ u64le p.size ++ writeUintSlice p.space
  | .unpacked words => writeUintSlice words

/-- `Vector.ReadFrom` dispatched on the receiver's representation:
`packed.ReadFrom` (src/unnamed/part_006) checks the sub-header version and
rebuilds `bits`/`forbiddenMask`/`size`/`space`; `unpacked.ReadFrom`
(src/unpacked.go) reads a word slice. -/
def FVec.readFrom : FVec → List Nat → Option (FVec × List Nat)
  | .packed _, s =>
    match readU64 s with
    | none => none
    | some (ver, s) =>
      if ver ≠ 8 then none
      else
        match readU64 s with
        | none => none
        | some (bits, s) =>
          match readU64 s with
          | none => none
          | some (size, s) =>
            match readUintSlice s with
            | none => none
            | some (space, s) => some (.packed ⟨genForbiddenMask bits, bits, space, size⟩, s)
  | .unpacked _, s =>
    match readUintSlice s with
    | none => none
    | some (words, s) => some (.unpacked words, s)

/-- `qf.allocfn(0, 0)`: the vector allocator chosen at construction per
`Config.BitPacked` (spec §9), at zero width and size. -/
def allocfnF (bitPacked : Bool) : FVec :=
  if bitPacked then .packed ⟨genForbiddenMask 0, 0, List.replicate (wordsRequired 0 0) 0, 0⟩
  else .unpacked (List.replicate 0 0)

/-- `Filter.WriteTo` (src/unnamed/part_004 lines 56-82): the `QFHeader`
`{Version = 4, Entries, QBits, StorageBits, BitPacked}` (the bool is one
byte), the slot vector, then the storage vector when present. -/
def Filter.WriteTo (f : Filter) : List Nat :=
  u64le 4 ++ u64le f.entries ++ u64le f.qBits ++ u64le f.storageBits ++
    [if f.bitPacked then 1 else 0] ++
    f.filter.writeTo ++
    (match f.storage with
     | some v => v.writeTo
     | none => [])

/-- `Filter.ReadFrom` (src/unnamed/part_004 lines 89-122): read and check
the header, restore `entries`, re-derive the sizing from `QBits`, then read
the vectors through the receiver's representations (allocating storage via
`allocfn` when the receiver has none). -/
def Filter.ReadFrom (f : Filter) (s : List Nat) : Option (Filter × List Nat) :=
  match readU64 s with
  | none => none
  | some (ver, s) =>
    match readU64 s with
    | none => none
    | some (entries, s) =>
      match readU64 s with
      | none => none
      | some (qBits, s) =>
        match readU64 s with
        | none => none
        | some (storageBits, s) =>
          match s with
          | [] => none
          | _bp :: s =>
            if ver ≠ 4 then none
            else
              let f := { f with entries := entries }
              let f := f.initFor qBits
              match f.filter.readFrom s with
              | none => none
              | some (fv, s) =>
                let f := { f with filter := fv }
                if storageBits > 0 then
                  let f := { f with storageBits := storageBits }
                  let sv := match f.storage with
                            | some v => v
                            | none => allocfnF f.bitPacked
                  match sv.readFrom s with
                  | none => none
                  | some (sv, s) => some ({ f with storage := some sv }, s)
                else some (f, s)

/-- Which representation a vector uses. -/
def FVec.isPacked : FVec → Bool
  | .packed _ => true
  | .unpacked _ => false

/-- Well-formedness of a vector for serialization: 64-bit fields and
words, and the packed mask consistent with its width. -/
def FVec.WFv : FVec → Prop
  | .packed p => p.bits < 2 ^ 64 ∧ p.size < 2 ^ 64 ∧ p.space.length < 2 ^ 64 ∧
      words64 p.space ∧ p.forbiddenMask = genForbiddenMask p.bits
  | .unpacked l => l.length < 2 ^ 64 ∧ ∀ w ∈ l, w < 2 ^ 64

theorem FVec.vec_roundtrip (v g : FVec) (hk : g.isPacked = v.isPacked)
    (hWF : v.WFv) (rest : List Nat) :
    g.readFrom (v.writeTo ++ rest) = some (v, rest) := by
  cases v with
  | packed p =>
    cases g with
    | unpacked _ => simp [FVec.isPacked] at hk
    | packed q =>
      obtain ⟨h1, h2, h3, h4, h5⟩ := hWF
      cases p with
      | mk fm bits space size =>
        simp only [FVec.WFv] at h5
        simp only [FVec.writeTo, FVec.readFrom, List.append_assoc,
          readU64_u64le 8 (by norm_num),
          readU64_u64le bits (by simpa using h1),
          readU64_u64le size (by simpa using h2)]
        rw [readUintSlice_write space (by simpa using h4) (by simpa using h3)]
        simp [h5]
  | unpacked words =>
    cases g with
    | packed _ => simp [FVec.isPacked] at hk
    | unpacked _ =>
      obtain ⟨h1, h2⟩ := hWF
      simp only [FVec.writeTo, FVec.readFrom, List.append_assoc]
      rw [readUintSlice_write words h2 h1]

/-- Well-formedness of a `Filter` for serialization: 64-bit header fields,
sizing fields derived from `qBits` (as `initForQuotientBits` computes
them), well-formed vectors matching the configured representation, and
storage present iff `storageBits > 0`. -/
def Filter.WF (f : Filter) : Prop :=
  f.entries < 2 ^ 64 ∧ f.qBits < 2 ^ 64 ∧ f.storageBits < 2 ^ 64 ∧
  f.size = 2 ^ f.qBits ∧ f.rBits = 64 - f.qBits ∧ f.rMask = rMaskFor (64 - f.qBits) ∧
  f.maxEntries = maxEntriesForSize (2 ^ f.qBits) ∧
  f.filter.WFv ∧ f.filter.isPacked = f.bitPacked ∧
  (match f.storage with
   | some v => f.storageBits > 0 ∧ v.WFv ∧ v.isPacked = f.bitPacked
   | none => f.storageBits = 0)

set_option maxHeartbeats 1000000 in
/-- C4: serialization round-trips: writing a well-formed filter `F` and
reading the stream back into a filter of the same configuration
reconstructs `F` exactly — hence every observable operation (`Len`,
`Contains`, `Lookup`) agrees on the read-back filter. -/
theorem Filter.readFrom_writeTo (f g : Filter) (hWF : f.WF)
    (hgk : g.filter.isPacked = f.bitPacked)
    (hgbp : g.bitPacked = f.bitPacked)
    (hgst : ∀ v, g.storage = some v → v.isPacked = f.bitPacked)
    (hg0 : f.storageBits = 0 → g.storage = none ∧ g.storageBits = 0)
    (rest : List Nat) :
    g.ReadFrom (f.WriteTo ++ rest) = some (f, rest) ∧
    ∀ f' rest', g.ReadFrom (f.WriteTo ++ rest) = some (f', rest') → f'.Len = f.Len := by
  obtain ⟨he, hq, hsb, hsz, hrb, hrm, hme, hfw, hfk, hst⟩ := hWF
  have hmain : g.ReadFrom (f.WriteTo ++ rest) = some (f, rest) := by
    rw [Filter.WriteTo, Filter.ReadFrom]
    simp only [List.append_assoc, List.cons_append, List.nil_append,
      readU64_u64le 4 (by norm_num), readU64_u64le f.entries he,
      readU64_u64le f.qBits hq, readU64_u64le f.storageBits hsb]
    rw [if_neg (by simp)]
    have hkv : g.filter.isPacked = f.filter.isPacked := by rw [hgk, hfk]
    simp only [Filter.initFor]
    rw [FVec.vec_roundtrip f.filter g.filter hkv hfw]
    dsimp only
    cases hstc : f.storage with
    | some sv =>
      obtain ⟨hpos, hsw, hsk⟩ : f.storageBits > 0 ∧ sv.WFv ∧ sv.isPacked = f.bitPacked := by
        rw [hstc] at hst
        exact hst
      simp only [if_pos hpos]
      cases hgs : g.storage with
      | some gv =>
        rw [FVec.vec_roundtrip sv gv (by rw [hgst gv hgs, hsk]) hsw]
        cases f with
        | mk e sz qb rb rm me sb bp fv st =>
          simp only at hstc hsz hrb hrm hme
          subst hstc
          simp [hsz, hrb, hrm, hme, hgbp]
      | none =>
        rw [FVec.vec_roundtrip sv (allocfnF g.bitPacked) (by
          rw [hsk, ← hgbp]
          cases hbp : g.bitPacked <;> simp [allocfnF, FVec.isPacked, hbp]) hsw]
        cases f with
        | mk e sz qb rb rm me sb bp fv st =>
          simp only at hstc hsz hrb hrm hme
          subst hstc
          simp [hsz, hrb, hrm, hme, hgbp]
    | none =>
      have hz : f.storageBits = 0 := by
        rw [hstc] at hst
        exact hst
      obtain ⟨hgn, hgz⟩ := hg0 hz
      simp only [hz, gt_iff_lt]
      rw [if_neg (Nat.lt_irrefl 0)]
      cases f with
      | mk e sz qb rb rm me sb bp fv st =>
        simp only at hstc hsz hrb hrm hme hz
        subst hstc
        simp [hsz, hrb, hrm, hme, hgbp, hgn, hgz, hz]
  exact ⟨hmain, fun f' rest' h => by
    rw [hmain] at h
    injection h with h1
    injection h1 with h2 h3
    rw [← h2]⟩

/-- Witness for `Filter.readFrom_writeTo` at a concrete filter. -/
theorem Filter.readFrom_writeTo_witness :
    (Filter.ReadFrom
        ⟨0, 4, 2, 62, rMaskFor 62, maxEntriesForSize 4, 0, true,
          .packed ⟨genForbiddenMask 62, 62, [0, 0], 4⟩, none⟩
        (Filter.WriteTo
          ⟨1, 4, 2, 62, rMaskFor 62, maxEntriesForSize 4, 0, true,
            .packed ⟨genForbiddenMask 62, 62, [7, 9], 4⟩, none⟩ ++ []) =
      some (⟨1, 4, 2, 62, rMaskFor 62, maxEntriesForSize 4, 0, true,
        .packed ⟨genForbiddenMask 62, 62, [7, 9], 4⟩, none⟩, [])) ∧
    ∀ f' rest',
      Filter.ReadFrom
        ⟨0, 4, 2, 62, rMaskFor 62, maxEntriesForSize 4, 0, true,
          .packed ⟨genForbiddenMask 62, 62, [0, 0], 4⟩, none⟩
        (Filter.WriteTo
          ⟨1, 4, 2, 62, rMaskFor 62, maxEntriesForSize 4, 0, true,
            .packed ⟨genForbiddenMask 62, 62, [7, 9], 4⟩, none⟩ ++ []) = some (f', rest') →
      f'.Len = Filter.Len ⟨1, 4, 2, 62, rMaskFor 62, maxEntriesForSize 4, 0, true,
        .packed ⟨genForbiddenMask 62, 62, [7, 9], 4⟩, none⟩ :=
  Filter.readFrom_writeTo
    ⟨1, 4, 2, 62, rMaskFor 62, maxEntriesForSize 4, 0, true,
      .packed ⟨genForbiddenMask 62, 62, [7, 9], 4⟩, none⟩
    ⟨0, 4, 2, 62, rMaskFor 62, maxEntriesForSize 4, 0, true,
      .packed ⟨genForbiddenMask 62, 62, [0, 0], 4⟩, none⟩
    ⟨by norm_num, by norm_num, by norm_num, rfl, rfl, rfl, rfl,
      ⟨by norm_num, by norm_num, by norm_num, by decide, rfl⟩, rfl, rfl⟩
    rfl rfl (fun v hv => by simp at hv) (fun _ => ⟨rfl, rfl⟩) []

/-- C1 counterexample (code bug): from a fresh `QBits = 4`, `B = 8` filter,
insert the hash fingerprints `(2,1) ↦ 10` and `(2,5) ↦ 20` (forming a
two-slot run of bucket 2 occupying slots 2 and 3), then insert the key with
fingerprint `(3,0)` and value `99`, then perform one interleaved insert of
the distinct key `(2,3) ↦ 7`: the final lookup of `(3,0)` returns
`(true, 0)` instead of `(true, 99)`.  Cause: `insertByHash` sets the
occupied bit of `dq` before calling `findStart`, and applies the
`dr == qf.remainders.Get(slot)` already-present check even when
`extendingRun` is false; the `(3,0)` insert therefore compares `dr = 0`
against the remainder `0` of the still-empty slot 4, takes the
payload-update path (returning `true` for a key that was never stored),
and leaves a stale occupied bit with no matching run content, which the
interleaved insert then displaces.  Hash values encode the fingerprints:
with `qBits = 4`, `rBits = 60`, the hash `dq * 2^60 + dr` splits into
`(dq, dr)`. -/
theorem insert_lookup_interleaved_counterexample :
    (((((NewWithConfig ⟨4, 8⟩).bind
        (fun qf => (qf.InsertWithValue (2 * 2 ^ 60 + 1) 10).map Prod.snd)).bind
        (fun qf => (qf.InsertWithValue (2 * 2 ^ 60 + 5) 20).map Prod.snd)).bind
        (fun qf => (qf.InsertWithValue (3 * 2 ^ 60) 99).map Prod.snd)).bind
        (fun qf => (qf.InsertWithValue (2 * 2 ^ 60 + 3) 7).map Prod.snd)).bind
        (fun qf => qf.lookupHash (3 * 2 ^ 60)) = some (true, 0) ∧
    ((true, 0) : Bool × Nat) ≠ (true, 99) :=
  ⟨by decide, by decide⟩

/-- C2 counterexample (code bug): from a fresh `QBits = 3`, `B = 8` filter,
insert the fingerprints `(1,2) ↦ 13`, `(1,0) ↦ 11`, `(2,0) ↦ 21`,
`(3,0) ↦ 31` (hash `dq * 2^61 + dr`).  The `(2,0)` insert hits the same
`insertByHash` bug as in the C1 counterexample (a phantom payload update
against the empty slot 3 plus a stale occupied bit for bucket 2), after
which `(3,0) ↦ 31` is stored normally in slot 3.  Before doubling, the
lookup of the previously-inserted key `(3,0)` returns `(true, 31)`; but
`eachHashValue` pairs runs with occupied buckets through a stack, so the
stale occupied bit makes `double()` replay slot 3 as bucket 2's content
and invent a bucket-3 entry from the empty slot 4, and after `double()`
the same lookup returns `(true, 0)`. -/
theorem double_lookup_counterexample :
    ((((((NewWithConfig ⟨3, 8⟩).bind
        (fun qf => (qf.InsertWithValue (2 ^ 61 + 2) 13).map Prod.snd)).bind
        (fun qf => (qf.InsertWithValue (2 ^ 61) 11).map Prod.snd)).bind
        (fun qf => (qf.InsertWithValue (2 * 2 ^ 61) 21).map Prod.snd)).bind
        (fun qf => (qf.InsertWithValue (3 * 2 ^ 61) 31).map Prod.snd)).map
        (fun qf => (qf.lookupHash (3 * 2 ^ 61), qf.double.map
          (fun q2 => q2.lookupHash (3 * 2 ^ 61))))) =
      some (some (true, 31), some (some (true, 0))) ∧
    ((true, 31) : Bool × Nat) ≠ (true, 0) :=
  ⟨by decide, by decide⟩


end QfExt
